import Mathlib

/-!
Shallow embedding of the bundling engine in `src/xp/cats.py`.

Modelling conventions:
* Python strings are lists of characters (`List Char`); comparisons use code
  points (`Char.toNat`), matching CPython's ordering on `str`.
* Python dicts are insertion-ordered association lists; keys are inserted at
  the end when absent and updated in place when present, exactly like CPython
  dicts preserve insertion order.
* Python sets are modelled as insertion-ordered duplicate-free lists.
* Character classes follow the ASCII fragment of Python's `\s` and `\w`,
  which is the fragment exercised by the source patterns (alias names are
  matched by `[a-zA-Z0-9_]+` in the source regexes).
-/

/-- Python regex class `\s` restricted to ASCII: space, tab, newline, carriage
return, vertical tab, form feed. -/
def isPySpace (c : Char) : Bool :=
  c == ' ' || c == '\t' || c == '\n' || c == '\r' || c == '\x0b' || c == '\x0c'

/-- Python regex class `\w` restricted to ASCII: letters, digits, underscore. -/
def isWordChar (c : Char) : Bool := c.isAlphanum || c == '_'

/-- Python string `<`: lexicographic comparison of code points. -/
def strLt : List Char → List Char → Bool
  | [], [] => false
  | [], _ :: _ => true
  | _ :: _, [] => false
  | a :: as, b :: bs =>
    if a.toNat < b.toNat then true
    else if b.toNat < a.toNat then false
    else strLt as bs

/-- Python string `<=` (total order used by `list.sort`). -/
def strLe (a b : List Char) : Bool := !(strLt b a)

/-- One insertion step of an insertion sort with respect to a boolean `le`. -/
def insertLe {α : Type} (le : α → α → Bool) (a : α) : List α → List α
  | [] => [a]
  | b :: l => if le a b then a :: b :: l else b :: insertLe le a l

/-- Stable ascending sort (models Python's `list.sort()` / `sorted`, whose
result is the unique ascending reordering under a total order). -/
def sortByLe {α : Type} (le : α → α → Bool) (l : List α) : List α :=
  l.foldr (insertLe le) []

/-- Lookup in an insertion-ordered dict (first, hence unique, binding). -/
def dGet {α : Type} (k : List Char) (d : List (List Char × α)) : Option α :=
  (d.find? (fun p => p.1 == k)).map (fun p => p.2)

/-- Key-membership test in an insertion-ordered dict. -/
def dMem {α : Type} (k : List Char) (d : List (List Char × α)) : Bool :=
  d.any (fun p => p.1 == k)

/-- Python dict assignment `d[k] = v`: update in place when the key exists,
append at the end otherwise. -/
def dSet {α : Type} (k : List Char) (v : α) : List (List Char × α) → List (List Char × α)
  | [] => [(k, v)]
  | (k', v') :: rest => if k' == k then (k, v) :: rest else (k', v') :: dSet k v rest

/-! ## Alias planner (`analyze_imports_and_plan`, src/xp/cats.py lines 406-437) -/

/-- The key of the planner's `min(aliases, key=lambda x: (len(x), x))`:
strictly smaller means shorter, or equal length and lexicographically
smaller. -/
def aliasKeyLt (a b : List Char) : Bool :=
  decide (a.length < b.length) || (a.length == b.length && strLt a b)

/-- The non-strict version of `aliasKeyLt`. -/
def aliasKeyLe (a b : List Char) : Bool := aliasKeyLt a b || a == b

/-- Python's `min(aliases, key=lambda x: (len(x), x))` over a nonempty
collection: keep the first element, replace it whenever a strictly smaller
key appears. -/
def minAlias : List (List Char) → List Char
  | [] => []
  | a :: rest => rest.foldl (fun best x => if aliasKeyLt x best then x else best) a

/-- The warning text `  [Warn] Alias conflict for '<alias>'` printed by the
planner on a redirect conflict. -/
def warnFor (a : List Char) : List Char :=
  "  [Warn] Alias conflict for ".data ++ (Char.ofNat 39 :: a ++ [Char.ofNat 39])

/-- The planner's mutable state: the alias redirect dict, the canonical-alias
to target dict, and the warnings emitted so far. -/
structure PlanState where
  redirects : List (List Char × List Char)
  canonicalToTarget : List (List Char × List Char)
  warnings : List (List Char)

/-- Body of the planner's inner loop `for alias in aliases` (src/xp/cats.py
lines 423-431). -/
def planAlias (canonical : List Char) (st : PlanState) (a : List Char) : PlanState :=
  if !(a == canonical) then
    if dMem a st.redirects && !(dGet a st.redirects == some canonical) then
      { st with warnings := st.warnings ++ [warnFor a] }
    else if !(dMem a st.redirects) then
      { st with redirects := st.redirects ++ [(a, canonical)] }
    else st
  else
    if !(dMem a st.redirects) then
      { st with redirects := st.redirects ++ [(a, canonical)] }
    else st

/-- Body of the planner's outer loop `for target, aliases in
target_to_aliases.items()` (src/xp/cats.py lines 418-431): skip empty alias
sets, pick the canonical alias by `min`, record it in `canonical_to_target`,
then run the inner loop. -/
def planTarget (st : PlanState) (entry : List Char × List (List Char)) : PlanState :=
  match entry.2 with
  | [] => st
  | a :: rest =>
    let canonical := minAlias (a :: rest)
    let st1 : PlanState :=
      { st with canonicalToTarget := dSet canonical entry.1 st.canonicalToTarget }
    (a :: rest).foldl (planAlias canonical) st1

/-- Add an alias to a target's alias set inside `target_to_aliases`
(a `defaultdict(set)`; the set is modelled as an insertion-ordered
duplicate-free list). -/
def multiAdd (tgt al : List Char) :
    List (List Char × List (List Char)) → List (List Char × List (List Char))
  | [] => [(tgt, [al])]
  | (t, as) :: rest =>
    if t == tgt then (t, if as.any (fun x => x == al) then as else as ++ [al]) :: rest
    else (t, as) :: multiAdd tgt al rest

/-- Build `target_to_aliases` from the namespace-imports map (src/xp/cats.py
lines 410-413): iterate sources in insertion order, and each source's
`alias → target` dict in insertion order. -/
def targetToAliases (nsMap : List (List Char × List (List Char × List Char))) :
    List (List Char × List (List Char)) :=
  nsMap.foldl (fun acc p => p.2.foldl (fun acc2 q => multiAdd q.2 q.1 acc2) acc) []

/-- `analyze_imports_and_plan` (src/xp/cats.py lines 406-437): returns the
alias redirect dict, the canonical-alias dict and the emitted warnings. -/
def analyzeImportsAndPlan (nsMap : List (List Char × List (List Char × List Char))) :
    PlanState :=
  (targetToAliases nsMap).foldl planTarget
    { redirects := [], canonicalToTarget := [], warnings := [] }

/-! ## Global alias rewrite (`assemble_and_write`, src/xp/cats.py lines 511-528)

The pattern `\b<alias>\.` with `re.sub`: scanning left to right, a match
fires at a position that is preceded by a non-word character (or the start
of the text) and begins with the alias followed by a dot; scanning resumes
after the matched span.  The boolean argument tracks whether the previous
character was a word character. -/

/-- Fuel-based recursion for `rewriteAlias`: the fuel bounds the remaining
text length, so the recursion is structural (and hence kernel-computable);
a match consumes at least one character, so fuel equal to the text length
never runs out. -/
def rewriteAliasAux (old new : List Char) : Nat → Bool → List Char → List Char
  | 0, _, s => s
  | _ + 1, _, [] => []
  | fuel + 1, pw, c :: cs =>
    if !pw && List.isPrefixOf (old ++ ['.']) (c :: cs) then
      new ++ '.' :: rewriteAliasAux old new fuel false (List.drop (old.length + 1) (c :: cs))
    else
      c :: rewriteAliasAux old new fuel (isWordChar c) cs

/-- One `re.sub(r"\b" + alias + r"\.", canonical + ".", text)` pass. -/
def rewriteAlias (old new : List Char) (pw : Bool) (s : List Char) : List Char :=
  rewriteAliasAux old new s.length pw s

theorem rewriteAliasAux_fuel (old new : List Char) :
    ∀ (n m : Nat) (pw : Bool) (s : List Char), s.length ≤ n → s.length ≤ m →
    rewriteAliasAux old new n pw s = rewriteAliasAux old new m pw s := by
  intro n
  induction n with
  | zero =>
    intro m pw s hn _
    have hs : s = [] := List.eq_nil_of_length_eq_zero (Nat.le_zero.mp hn)
    subst hs
    cases m with
    | zero => rfl
    | succ m => rfl
  | succ n ih =>
    intro m pw s hn hm
    cases s with
    | nil =>
      cases m with
      | zero => rfl
      | succ m => rfl
    | cons c cs =>
      cases m with
      | zero => simp at hm
      | succ m =>
        simp only [rewriteAliasAux]
        simp only [List.length_cons] at hn hm
        by_cases hc : (!pw && List.isPrefixOf (old ++ ['.']) (c :: cs)) = true
        · have hd : (List.drop (old.length + 1) (c :: cs)).length ≤ cs.length := by
            simp only [List.length_drop, List.length_cons]; omega
          rw [if_pos hc, if_pos hc, ih m false _ (by omega) (by omega)]
        · rw [if_neg hc, if_neg hc, ih m (isWordChar c) cs (by omega) (by omega)]

/-- Whether the text contains a word-boundary occurrence of `<alias>.`,
scanning with the same state as `rewriteAlias`. -/
def hasAliasOcc (old : List Char) : Bool → List Char → Bool
  | _, [] => false
  | pw, c :: cs =>
    if !pw && List.isPrefixOf (old ++ ['.']) (c :: cs) then true
    else hasAliasOcc old (isWordChar c) cs

/-- The final rewrite loop over the redirect dict (src/xp/cats.py lines
517-524): identity pairs are skipped, other pairs are substituted over the
whole current text, sequentially in dict order. -/
def applyAliasRewrites (redirects : List (List Char × List Char)) (text : List Char) :
    List Char :=
  redirects.foldl (fun acc p => if p.1 == p.2 then acc else rewriteAlias p.1 p.2 false acc) text

theorem hasAliasOcc_cons_neg (old : List Char) (pw : Bool) (c : Char) (cs : List Char)
    (h : (!pw && List.isPrefixOf (old ++ ['.']) (c :: cs)) = false) :
    hasAliasOcc old pw (c :: cs) = hasAliasOcc old (isWordChar c) cs := by
  rw [hasAliasOcc, h]
  simp

theorem rewriteAlias_cons_pos (old new : List Char) (pw : Bool) (c : Char) (cs : List Char)
    (h : (!pw && List.isPrefixOf (old ++ ['.']) (c :: cs)) = true) :
    rewriteAlias old new pw (c :: cs) =
      new ++ '.' :: rewriteAlias old new false (List.drop (old.length + 1) (c :: cs)) := by
  unfold rewriteAlias
  simp only [List.length_cons, rewriteAliasAux, h, if_true]
  rw [rewriteAliasAux_fuel old new cs.length (List.drop (old.length + 1) (c :: cs)).length
    false _ (by simp only [List.length_drop, List.length_cons]; omega) le_rfl]

theorem rewriteAlias_cons_neg (old new : List Char) (pw : Bool) (c : Char) (cs : List Char)
    (h : (!pw && List.isPrefixOf (old ++ ['.']) (c :: cs)) = false) :
    rewriteAlias old new pw (c :: cs) = c :: rewriteAlias old new (isWordChar c) cs := by
  unfold rewriteAlias
  simp only [List.length_cons, rewriteAliasAux, h]
  simp

/-! ### Facts about the planner's canonical choice (claim C1) -/

theorem minAlias_mem (l : List (List Char)) (h : l ≠ []) : minAlias l ∈ l := by
  match l with
  | a :: rest =>
    suffices H : ∀ (t : List (List Char)) (b : List Char),
        t.foldl (fun best x => if aliasKeyLt x best then x else best) b = b ∨
        t.foldl (fun best x => if aliasKeyLt x best then x else best) b ∈ t by
      rcases H rest a with h1 | h1
      · simp [minAlias, h1]
      · simp [minAlias]; right; exact h1
    intro t
    induction t with
    | nil => intro b; left; rfl
    | cons x xs ih =>
      intro b
      simp only [List.foldl_cons]
      by_cases hx : aliasKeyLt x b
      · rcases ih x with h2 | h2
        · right; simp [hx, h2]
        · right; simp [hx]; right; exact h2
      · rcases ih b with h2 | h2
        · left; simp [hx, h2]
        · right; simp [hx]; right; exact h2


theorem charEq_of_toNat_eq {a b : Char} (h : a.toNat = b.toNat) : a = b := by
  have ha := Char.ofNat_toNat a
  have hb := Char.ofNat_toNat b
  rw [← ha, ← hb, h]

theorem strLt_trans : ∀ x y z : List Char, strLt x y = true → strLt y z = true →
    strLt x z = true := by
  intro x
  induction x with
  | nil =>
    intro y z hxy hyz
    cases y with
    | nil => simp [strLt] at hxy
    | cons b bs =>
      cases z with
      | nil => simp [strLt] at hyz
      | cons c cs => simp [strLt]
  | cons a as ih =>
    intro y z hxy hyz
    cases y with
    | nil => simp [strLt] at hxy
    | cons b bs =>
      cases z with
      | nil => simp [strLt] at hyz
      | cons c cs =>
        simp only [strLt] at hxy hyz ⊢
        by_cases hab : a.toNat < b.toNat
        · by_cases hbc : b.toNat < c.toNat
          · simp [show a.toNat < c.toNat by omega]
          · by_cases hcb : c.toNat < b.toNat
            · simp only [if_pos hbc, if_neg hbc, if_pos hcb] at hyz
              · exact absurd hyz (by simp)
            · simp [show a.toNat < c.toNat by omega]
        · by_cases hba : b.toNat < a.toNat
          · simp only [if_neg hab, if_pos hba] at hxy
            exact absurd hxy (by simp)
          · have hab' : a.toNat = b.toNat := by omega
            simp only [if_neg hab, if_neg hba] at hxy
            by_cases hbc : b.toNat < c.toNat
            · simp [show a.toNat < c.toNat by omega]
            · by_cases hcb : c.toNat < b.toNat
              · simp only [if_neg hbc, if_pos hcb] at hyz
                exact absurd hyz (by simp)
              · have hnac : ¬ a.toNat < c.toNat := by omega
                have hnca : ¬ c.toNat < a.toNat := by omega
                simp only [if_neg hbc, if_neg hcb] at hyz
                simp only [if_neg hnac, if_neg hnca]
                exact ih bs cs hxy hyz

theorem strLt_irrefl (a : List Char) : strLt a a = false := by
  induction a with
  | nil => rfl
  | cons c cs ih => simp [strLt, ih]

theorem strLt_total (a b : List Char) (hne : a ≠ b) :
    strLt a b = true ∨ strLt b a = true := by
  induction a generalizing b with
  | nil =>
    cases b with
    | nil => exact absurd rfl hne
    | cons c cs => left; rfl
  | cons c cs ih =>
    cases b with
    | nil => right; rfl
    | cons d ds =>
      by_cases hcd : c.toNat < d.toNat
      · left; simp [strLt, hcd]
      · by_cases hdc : d.toNat < c.toNat
        · right; simp [strLt, hdc]
        · have hc : c = d := charEq_of_toNat_eq (by omega)
          subst hc
          have hne' : cs ≠ ds := fun h => hne (by rw [h])
          rcases ih ds hne' with h | h
          · left; simp [strLt, hcd, hdc, h]
          · right; simp [strLt, hcd, hdc, h]

theorem aliasKeyLt_trans {a b c : List Char} (h1 : aliasKeyLt a b = true)
    (h2 : aliasKeyLt b c = true) : aliasKeyLt a c = true := by
  simp only [aliasKeyLt, Bool.or_eq_true, Bool.and_eq_true, decide_eq_true_eq,
    beq_iff_eq] at h1 h2 ⊢
  rcases h1 with h1 | ⟨h1e, h1l⟩
  · rcases h2 with h2 | ⟨h2e, h2l⟩
    · left; omega
    · left; omega
  · rcases h2 with h2 | ⟨h2e, h2l⟩
    · left; omega
    · right; exact ⟨by omega, strLt_trans _ _ _ h1l h2l⟩

theorem aliasKeyLt_total (a b : List Char) (hne : a ≠ b) :
    aliasKeyLt a b = true ∨ aliasKeyLt b a = true := by
  simp only [aliasKeyLt, Bool.or_eq_true, Bool.and_eq_true, decide_eq_true_eq,
    beq_iff_eq]
  rcases Nat.lt_trichotomy a.length b.length with h | h | h
  · left; left; exact h
  · rcases strLt_total a b hne with hs | hs
    · left; right; exact ⟨h, hs⟩
    · right; right; exact ⟨h.symm, hs⟩
  · right; left; exact h

theorem aliasKeyLe_refl (a : List Char) : aliasKeyLe a a = true := by
  simp [aliasKeyLe]

theorem aliasKeyLe_of_lt {a b : List Char} (h : aliasKeyLt a b = true) :
    aliasKeyLe a b = true := by
  simp [aliasKeyLe, h]

theorem aliasKeyLe_trans_lt {a b c : List Char} (h1 : aliasKeyLe a b = true)
    (h2 : aliasKeyLt b c = true) : aliasKeyLe a c = true := by
  simp only [aliasKeyLe, Bool.or_eq_true, beq_iff_eq] at h1 ⊢
  rcases h1 with h1 | h1
  · left; exact aliasKeyLt_trans h1 h2
  · subst h1; left; exact h2

theorem foldMin_le (t : List (List Char)) (b : List Char) :
    aliasKeyLe (t.foldl (fun best x => if aliasKeyLt x best then x else best) b) b = true ∧
    ∀ a ∈ t, aliasKeyLe (t.foldl (fun best x => if aliasKeyLt x best then x else best) b) a = true := by
  induction t generalizing b with
  | nil =>
    refine ⟨aliasKeyLe_refl b, ?_⟩
    intro a ha; simp at ha
  | cons y ys ih =>
    simp only [List.foldl_cons]
    by_cases hy : aliasKeyLt y b = true
    · simp only [if_pos hy]
      refine ⟨aliasKeyLe_trans_lt (ih y).1 hy, ?_⟩
      intro a ha
      rcases List.mem_cons.mp ha with h | h
      · subst h; exact (ih a).1
      · exact (ih y).2 a h
    · simp only [if_neg hy]
      refine ⟨(ih b).1, ?_⟩
      intro a ha
      rcases List.mem_cons.mp ha with h | h
      · subst h
        by_cases hab : b = a
        · subst hab; exact (ih b).1
        · rcases aliasKeyLt_total a b (fun hh => hab hh.symm) with hlt | hlt
          · exact absurd hlt hy
          · exact aliasKeyLe_trans_lt (ih b).1 hlt
      · exact (ih b).2 a h

theorem minAlias_min (l : List (List Char)) :
    ∀ a ∈ l, aliasKeyLe (minAlias l) a = true := by
  match l with
  | [] => intro a ha; simp at ha
  | x :: rest =>
    intro a ha
    simp only [minAlias]
    rcases List.mem_cons.mp ha with h | h
    · subst h; exact (foldMin_le rest a).1
    · exact (foldMin_le rest x).2 a h

/-! ### Facts about the global alias rewrite (claims C3 and C4)

Aliases captured by the source regexes consist of word characters only
(`[a-zA-Z0-9_]+`), which is what the `AllWord` hypothesis below records. -/

/-- Every character of the string is a word character. -/
def AllWord (w : List Char) : Prop := ∀ c ∈ w, isWordChar c = true

instance (w : List Char) : Decidable (AllWord w) :=
  inferInstanceAs (Decidable (∀ c ∈ w, isWordChar c = true))

theorem isWordChar_dot : isWordChar '.' = false := by decide

theorem prefix_into_wordDot {old new : List Char} (how : AllWord old) (hnw : AllWord new)
    {R : List Char} (h : (old ++ ['.']) <+: (new ++ '.' :: R)) : old = new := by
  induction old generalizing new with
  | nil =>
    cases new with
    | nil => rfl
    | cons m ms =>
      simp only [List.nil_append, List.cons_append] at h
      rcases List.cons_prefix_cons.mp h with ⟨h1, _⟩
      have hm : isWordChar m = true := hnw m (List.mem_cons_self m ms)
      rw [← h1] at hm
      exact absurd hm (by simp [isWordChar_dot])
  | cons o os ih =>
    cases new with
    | nil =>
      simp only [List.cons_append, List.nil_append] at h
      rcases List.cons_prefix_cons.mp h with ⟨h1, _⟩
      have hm : isWordChar o = true := how o (List.mem_cons_self o os)
      rw [h1] at hm
      exact absurd hm (by simp [isWordChar_dot])
    | cons m ms =>
      simp only [List.cons_append] at h
      rcases List.cons_prefix_cons.mp h with ⟨h1, h2⟩
      have := ih (fun c hc => how c (List.mem_cons_of_mem o hc))
        (fun c hc => hnw c (List.mem_cons_of_mem m hc)) h2
      rw [h1, this]

theorem hasAliasOcc_word_true (old : List Char) {w : List Char} (hw : AllWord w)
    (t : List Char) : hasAliasOcc old true (w ++ t) = hasAliasOcc old true t := by
  induction w with
  | nil => rfl
  | cons c cs ih =>
    have hc : isWordChar c = true := hw c (List.mem_cons_self c cs)
    simp only [List.cons_append, hasAliasOcc, Bool.not_true, Bool.false_and,
      Bool.false_eq_true, if_false, hc]
    exact ih (fun x hx => hw x (List.mem_cons_of_mem c hx))

theorem prefix_of_rewrite_true {a' c' u : List Char} (hu : AllWord u) :
    ∀ s, (u ++ ['.']) <+: rewriteAlias a' c' true s → (u ++ ['.']) <+: s := by
  induction u with
  | nil =>
    intro s h
    cases s with
    | nil => simp [rewriteAlias, rewriteAliasAux, List.prefix_nil] at h
    | cons c cs =>
      rw [rewriteAlias_cons_neg a' c' true c cs (by simp)] at h
      simp only [List.nil_append] at h ⊢
      rcases List.cons_prefix_cons.mp h with ⟨h1, _⟩
      exact List.cons_prefix_cons.mpr ⟨h1, List.nil_prefix⟩
  | cons x xs ih =>
    intro s h
    cases s with
    | nil => simp [rewriteAlias, rewriteAliasAux, List.prefix_nil] at h
    | cons c cs =>
      rw [rewriteAlias_cons_neg a' c' true c cs (by simp)] at h
      simp only [List.cons_append] at h ⊢
      rcases List.cons_prefix_cons.mp h with ⟨h1, h2⟩
      subst h1
      have hx : isWordChar x = true := hu x (List.mem_cons_self x xs)
      rw [hx] at h2
      exact List.cons_prefix_cons.mpr
        ⟨rfl, ih (fun y hy => hu y (List.mem_cons_of_mem x hy)) cs h2⟩

/-- The boundary state after scanning a block of characters. -/
def endState (pw : Bool) : List Char → Bool
  | [] => pw
  | c :: u => endState (isWordChar c) u

theorem endState_append (pw : Bool) (u v : List Char) :
    endState pw (u ++ v) = endState (endState pw u) v := by
  induction u generalizing pw with
  | nil => rfl
  | cons c cs ih =>
    simp only [List.cons_append, endState, List.append_eq]
    exact ih (isWordChar c)

theorem hasAliasOcc_append_false (old : List Char) :
    ∀ (u : List Char) (pw : Bool) (v : List Char),
    hasAliasOcc old pw (u ++ v) = false → hasAliasOcc old (endState pw u) v = false := by
  intro u
  induction u with
  | nil => intro pw v h; exact h
  | cons c cs ih =>
    intro pw v h
    simp only [List.cons_append, hasAliasOcc] at h
    split at h
    · exact absurd h (by simp)
    · exact ih (isWordChar c) v h

theorem boundary_false_of_no_match {old : List Char} {pw : Bool} {c : Char} {cs : List Char}
    (h : ¬ (old ++ ['.']) <+: (c :: cs)) :
    (!pw && List.isPrefixOf (old ++ ['.']) (c :: cs)) = false := by
  have : List.isPrefixOf (old ++ ['.']) (c :: cs) = false := by
    by_contra hx
    exact h (List.isPrefixOf_iff_prefix.mp (Bool.not_eq_false _ ▸ hx))
  simp [this]

theorem hasAliasOcc_skip_wordDot {old w : List Char} (hw : AllWord w) (hwne : w ≠ [])
    (t : List Char) (hnp : ¬ (old ++ ['.']) <+: (w ++ '.' :: t)) :
    hasAliasOcc old false (w ++ '.' :: t) = hasAliasOcc old false t := by
  cases w with
  | nil => exact absurd rfl hwne
  | cons m ms =>
    rw [List.cons_append]
    rw [hasAliasOcc_cons_neg old false m (ms ++ '.' :: t)
      (boundary_false_of_no_match (by rw [List.cons_append] at hnp; exact hnp))]
    rw [hw m (List.mem_cons_self m ms)]
    rw [hasAliasOcc_word_true old (fun x hx => hw x (List.mem_cons_of_mem m hx)) ('.' :: t)]
    rw [hasAliasOcc_cons_neg old true '.' t (by simp)]
    rw [isWordChar_dot]

theorem rewriteAlias_no_occ {old new : List Char} (how : AllWord old) (ho : old ≠ [])
    (hnw : AllWord new) (hn : new ≠ []) (hne : old ≠ new) :
    ∀ (s : List Char) (pw : Bool),
    hasAliasOcc old pw (rewriteAlias old new pw s) = false := by
  suffices H : ∀ (n : Nat) (s : List Char) (pw : Bool), s.length ≤ n →
      hasAliasOcc old pw (rewriteAlias old new pw s) = false by
    intro s pw; exact H s.length s pw le_rfl
  intro n
  induction n with
  | zero =>
    intro s pw hl
    have hs : s = [] := List.eq_nil_of_length_eq_zero (Nat.le_zero.mp hl)
    subst hs
    simp [rewriteAlias, rewriteAliasAux, hasAliasOcc]
  | succ n ih =>
    intro s pw hl
    cases s with
    | nil => simp [rewriteAlias, rewriteAliasAux, hasAliasOcc]
    | cons c cs =>
      by_cases hm : (!pw && List.isPrefixOf (old ++ ['.']) (c :: cs)) = true
      · rw [rewriteAlias_cons_pos old new pw c cs hm]
        have hpw : pw = false := by
          rcases Bool.and_eq_true_iff.mp hm with ⟨h1, _⟩
          cases pw
          · rfl
          · simp at h1
        subst hpw
        rw [hasAliasOcc_skip_wordDot hnw hn _
          (fun hpre => hne (prefix_into_wordDot how hnw hpre))]
        apply ih
        have hd : (List.drop (old.length + 1) (c :: cs)).length ≤ cs.length := by
          simp only [List.length_drop, List.length_cons]
          omega
        simp only [List.length_cons] at hl
        omega
      · have hm' : (!pw && List.isPrefixOf (old ++ ['.']) (c :: cs)) = false :=
          Bool.not_eq_true _ ▸ hm
        rw [rewriteAlias_cons_neg old new pw c cs hm']
        rw [hasAliasOcc_cons_neg old pw c (rewriteAlias old new (isWordChar c) cs) ?hb]
        case hb =>
          cases pw with
          | true => simp
          | false =>
            apply boundary_false_of_no_match
            intro hpre
            cases hold : old with
            | nil => exact ho hold
            | cons o os =>
              rw [hold, List.cons_append] at hpre
              rcases List.cons_prefix_cons.mp hpre with ⟨h1, h2⟩
              have hcw : isWordChar c = true := by
                rw [← h1]; exact how o (hold ▸ List.mem_cons_self o os)
              rw [hcw] at h2
              have h3 : (os ++ ['.']) <+: cs :=
                prefix_of_rewrite_true
                  (fun x hx => how x (hold ▸ List.mem_cons_of_mem o hx)) cs h2
              have h4 : (old ++ ['.']) <+: (c :: cs) := by
                rw [hold, List.cons_append]
                exact List.cons_prefix_cons.mpr ⟨h1, h3⟩
              apply hm
              simp only [Bool.not_false, Bool.true_and]
              exact List.isPrefixOf_iff_prefix.mpr h4
        · apply ih
          simp only [List.length_cons] at hl
          omega

theorem rewriteAlias_of_no_occ {old new : List Char} :
    ∀ (s : List Char) (pw : Bool), hasAliasOcc old pw s = false →
    rewriteAlias old new pw s = s := by
  intro s
  induction s with
  | nil => intro pw _; rfl
  | cons c cs ih =>
    intro pw h
    have hc : (!pw && List.isPrefixOf (old ++ ['.']) (c :: cs)) = false := by
      by_contra hx
      have hx' := Bool.not_eq_false _ ▸ hx
      rw [hasAliasOcc, hx'] at h
      simp at h
    rw [hasAliasOcc_cons_neg old pw c cs hc] at h
    rw [rewriteAlias_cons_neg old new pw c cs hc, ih (isWordChar c) h]

theorem rewriteAlias_preserves_no_occ {a a' c' : List Char}
    (ha : AllWord a) (ha0 : a ≠ [])
    (ha' : AllWord a') (hc' : AllWord c') (hc'0 : c' ≠ [])
    (hne : a ≠ c') :
    ∀ (s : List Char) (pw : Bool), hasAliasOcc a pw s = false →
    hasAliasOcc a pw (rewriteAlias a' c' pw s) = false := by
  suffices H : ∀ (n : Nat) (s : List Char) (pw : Bool), s.length ≤ n →
      hasAliasOcc a pw s = false →
      hasAliasOcc a pw (rewriteAlias a' c' pw s) = false by
    intro s pw; exact H s.length s pw le_rfl
  intro n
  induction n with
  | zero =>
    intro s pw hl _
    have hs : s = [] := List.eq_nil_of_length_eq_zero (Nat.le_zero.mp hl)
    subst hs
    simp [rewriteAlias, rewriteAliasAux, hasAliasOcc]
  | succ n ih =>
    intro s pw hl hno
    cases s with
    | nil => simp [rewriteAlias, rewriteAliasAux, hasAliasOcc]
    | cons c cs =>
      by_cases hm : (!pw && List.isPrefixOf (a' ++ ['.']) (c :: cs)) = true
      · rw [rewriteAlias_cons_pos a' c' pw c cs hm]
        have hpw : pw = false := by
          rcases Bool.and_eq_true_iff.mp hm with ⟨h1, _⟩
          cases pw
          · rfl
          · simp at h1
        subst hpw
        have hpre : (a' ++ ['.']) <+: (c :: cs) :=
          List.isPrefixOf_iff_prefix.mp (Bool.and_eq_true_iff.mp hm).2
        rcases hpre with ⟨t, ht⟩
        have hdrop : List.drop (a'.length + 1) (c :: cs) = t := by
          rw [← ht]
          have : a'.length + 1 = (a' ++ ['.']).length := by simp
          rw [this, List.drop_left]
        have hsplit : hasAliasOcc a false t = false := by
          have := hasAliasOcc_append_false a (a' ++ ['.']) false t (ht ▸ hno)
          rwa [endState_append, show endState (endState false a') ['.'] = false by
            simp [endState, isWordChar_dot]] at this
        rw [hasAliasOcc_skip_wordDot hc' hc'0 _
          (fun hp => hne (prefix_into_wordDot ha hc' hp))]
        rw [hdrop]
        apply ih t false _ hsplit
        have : t.length + (a'.length + 1) = (c :: cs).length := by
          rw [← ht]; simp; omega
        simp only [List.length_cons] at this hl
        omega
      · have hm' : (!pw && List.isPrefixOf (a' ++ ['.']) (c :: cs)) = false :=
          Bool.not_eq_true _ ▸ hm
        rw [rewriteAlias_cons_neg a' c' pw c cs hm']
        have hno' : hasAliasOcc a (isWordChar c) cs = false := by
          have hc0 : (!pw && List.isPrefixOf (a ++ ['.']) (c :: cs)) = false := by
            by_contra hx
            have hx' := Bool.not_eq_false _ ▸ hx
            rw [hasAliasOcc, hx'] at hno
            simp at hno
          rwa [hasAliasOcc_cons_neg a pw c cs hc0] at hno
        rw [hasAliasOcc_cons_neg a pw c (rewriteAlias a' c' (isWordChar c) cs) ?hb]
        case hb =>
          cases pw with
          | true => simp
          | false =>
            apply boundary_false_of_no_match
            intro hpre
            cases hold : a with
            | nil => exact ha0 hold
            | cons o os =>
              rw [hold, List.cons_append] at hpre
              rcases List.cons_prefix_cons.mp hpre with ⟨h1, h2⟩
              have hcw : isWordChar c = true := by
                rw [← h1]; exact ha o (hold ▸ List.mem_cons_self o os)
              rw [hcw] at h2
              have h3 : (os ++ ['.']) <+: cs :=
                prefix_of_rewrite_true
                  (fun x hx => ha x (hold ▸ List.mem_cons_of_mem o hx)) cs h2
              have h4 : (a ++ ['.']) <+: (c :: cs) := by
                rw [hold, List.cons_append]
                exact List.cons_prefix_cons.mpr ⟨h1, h3⟩
              have hc0 : (!false && List.isPrefixOf (a ++ ['.']) (c :: cs)) = true := by
                simp only [Bool.not_false, Bool.true_and]
                exact List.isPrefixOf_iff_prefix.mpr h4
              rw [hasAliasOcc, hc0] at hno
              simp at hno
        · apply ih cs (isWordChar c) _ hno'
          simp only [List.length_cons] at hl
          omega

/-- The side conditions under which the sequential rewrite pass is idempotent:
every non-identity redirect has nonempty word-character source and value, and
no value of a non-identity redirect is itself the source of a non-identity
redirect (no chained redirects). -/
def goodRedirects (R : List (List Char × List Char)) : Prop :=
  ∀ p ∈ R, p.1 ≠ p.2 →
    AllWord p.1 ∧ p.1 ≠ [] ∧ AllWord p.2 ∧ p.2 ≠ [] ∧
    ∀ q ∈ R, q.1 ≠ q.2 → q.1 ≠ p.2

instance (R : List (List Char × List Char)) : Decidable (goodRedirects R) :=
  inferInstanceAs (Decidable (∀ p ∈ R, p.1 ≠ p.2 →
    AllWord p.1 ∧ p.1 ≠ [] ∧ AllWord p.2 ∧ p.2 ≠ [] ∧
    ∀ q ∈ R, q.1 ≠ q.2 → q.1 ≠ p.2))

theorem foldRewrites_preserves
    (L : List (List Char × List Char)) (t a : List Char)
    (hword : ∀ q ∈ L, q.1 ≠ q.2 → AllWord q.1 ∧ q.1 ≠ [] ∧ AllWord q.2 ∧ q.2 ≠ [])
    (hcross : ∀ q ∈ L, q.1 ≠ q.2 → a ≠ q.2)
    (ha : AllWord a) (ha0 : a ≠ [])
    (hno : hasAliasOcc a false t = false) :
    hasAliasOcc a false
      (L.foldl (fun acc p => if p.1 == p.2 then acc else rewriteAlias p.1 p.2 false acc) t)
      = false := by
  induction L generalizing t with
  | nil => exact hno
  | cons q L' ih =>
    simp only [List.foldl_cons]
    by_cases hq : q.1 = q.2
    · rw [if_pos (beq_iff_eq.mpr hq)]
      exact ih t (fun r hr => hword r (List.mem_cons_of_mem q hr))
        (fun r hr => hcross r (List.mem_cons_of_mem q hr)) hno
    · rw [if_neg (by simpa using hq)]
      rcases hword q (List.mem_cons_self q L') hq with ⟨hw1, hw2, hw3, hw4⟩
      exact ih _ (fun r hr => hword r (List.mem_cons_of_mem q hr))
        (fun r hr => hcross r (List.mem_cons_of_mem q hr))
        (rewriteAlias_preserves_no_occ ha ha0 hw1 hw3 hw4
          (hcross q (List.mem_cons_self q L') hq) t false hno)

theorem foldRewrites_establishes
    (L : List (List Char × List Char)) (t : List Char)
    (hword : ∀ q ∈ L, q.1 ≠ q.2 → AllWord q.1 ∧ q.1 ≠ [] ∧ AllWord q.2 ∧ q.2 ≠ [])
    (hcross : ∀ p ∈ L, p.1 ≠ p.2 → ∀ q ∈ L, q.1 ≠ q.2 → q.1 ≠ p.2) :
    ∀ p ∈ L, p.1 ≠ p.2 →
    hasAliasOcc p.1 false
      (L.foldl (fun acc p => if p.1 == p.2 then acc else rewriteAlias p.1 p.2 false acc) t)
      = false := by
  induction L generalizing t with
  | nil => intro p hp; simp at hp
  | cons q L' ih =>
    intro p hp hpne
    simp only [List.foldl_cons]
    rcases List.mem_cons.mp hp with hpq | hp'
    · subst hpq
      rw [if_neg (by simpa using hpne)]
      rcases hword p (List.mem_cons_self p L') hpne with ⟨hw1, hw2, hw3, hw4⟩
      apply foldRewrites_preserves L' _ p.1
        (fun r hr => hword r (List.mem_cons_of_mem p hr))
        (fun r hr hrne => hcross r (List.mem_cons_of_mem p hr) hrne p
          (List.mem_cons_self p L') hpne)
        hw1 hw2
      exact rewriteAlias_no_occ hw1 hw2 hw3 hw4 hpne t false
    · by_cases hq : q.1 = q.2
      · rw [if_pos (beq_iff_eq.mpr hq)]
        exact ih t (fun r hr => hword r (List.mem_cons_of_mem q hr))
          (fun r hr hrne s hs hsne => hcross r (List.mem_cons_of_mem q hr) hrne s
            (List.mem_cons_of_mem q hs) hsne) p hp' hpne
      · rw [if_neg (by simpa using hq)]
        exact ih _ (fun r hr => hword r (List.mem_cons_of_mem q hr))
          (fun r hr hrne s hs hsne => hcross r (List.mem_cons_of_mem q hr) hrne s
            (List.mem_cons_of_mem q hs) hsne) p hp' hpne

theorem foldRewrites_id
    (L : List (List Char × List Char)) (t : List Char)
    (h : ∀ p ∈ L, p.1 ≠ p.2 → hasAliasOcc p.1 false t = false) :
    L.foldl (fun acc p => if p.1 == p.2 then acc else rewriteAlias p.1 p.2 false acc) t
      = t := by
  induction L with
  | nil => rfl
  | cons q L' ih =>
    simp only [List.foldl_cons]
    by_cases hq : q.1 = q.2
    · rw [if_pos (beq_iff_eq.mpr hq)]
      exact ih (fun r hr => h r (List.mem_cons_of_mem q hr))
    · rw [if_neg (by simpa using hq)]
      rw [rewriteAlias_of_no_occ t false (h q (List.mem_cons_self q L') hq)]
      exact ih (fun r hr => h r (List.mem_cons_of_mem q hr))

theorem applyAliasRewrites_idem (R : List (List Char × List Char))
    (h : goodRedirects R) (t : List Char) :
    applyAliasRewrites R (applyAliasRewrites R t) = applyAliasRewrites R t := by
  unfold applyAliasRewrites
  apply foldRewrites_id
  intro p hp hpne
  apply foldRewrites_establishes R t
    (fun q hq hqne => ⟨(h q hq hqne).1, (h q hq hqne).2.1, (h q hq hqne).2.2.1,
      (h q hq hqne).2.2.2.1⟩)
    (fun p' hp' hpne' q hq hqne => (h p' hp' hpne').2.2.2.2 q hq hqne)
    p hp hpne

/-! ## File classifier (`find_ts_files`, src/xp/cats.py lines 229-253) -/

/-- ASCII lowercasing, modelling Python's `str.lower` on the ASCII file names
handled by the classifier. -/
def asciiLower (c : Char) : Char :=
  if 'A'.toNat ≤ c.toNat ∧ c.toNat ≤ 'Z'.toNat then Char.ofNat (c.toNat + 32) else c

/-- Python `filename.lower()`. -/
def lowerStr (s : List Char) : List Char := s.map asciiLower

/-- Python `s.endswith(suffix)`. -/
def endsWithS (suffix s : List Char) : Bool := List.isSuffixOf suffix s

/-- Python `d.startswith(".")`. -/
def headIsDot : List Char → Bool
  | [] => false
  | c :: _ => c == '.'

/-- The directory-exclusion rule of the walker (src/xp/cats.py lines 234-241):
a directory is kept iff it is not `node_modules`, not dot-prefixed, not
`dist` and not `build`. -/
def allowedDir (d : List Char) : Bool :=
  !(d == "node_modules".data) && !(headIsDot d) && !(d == "dist".data) && !(d == "build".data)

/-- Per-file classification (src/xp/cats.py lines 242-249): `none` when the
file is not an eligible source file (wrong extension or a declaration file),
otherwise `some true` for the test group and `some false` for the main group.
All checks are made on the lowercased name, as in the source. -/
def classifyFile (filename : List Char) : Option Bool :=
  let lf := lowerStr filename
  if endsWithS ".ts".data lf && !(endsWithS ".d.ts".data lf) then
    some (endsWithS "_test.ts".data lf)
  else none

/-- A directory tree: named subdirectories and files (name, content). -/
inductive FsTree where
  | mk (dirs : List (List Char × FsTree)) (files : List (List Char × List Char))

/-- `os.walk(root, topdown=True)` with the in-place pruning of excluded
directory names (src/xp/cats.py lines 233-241): pruning happens before
descending, so an excluded subtree is never visited.  Yields (directory
components relative to the root, filename, content) triples. -/
def walkTree : FsTree → List (List (List Char) × List Char × List Char)
  | .mk dirs files =>
    files.map (fun f => ([], f.1, f.2)) ++
    (dirs.attach.foldr (fun d acc =>
      (if allowedDir d.1.1 then
        (walkTree d.1.2).map (fun e => (d.1.1 :: e.1, e.2.1, e.2.2))
      else []) ++ acc) [])
  decreasing_by
    have h1 := List.sizeOf_lt_of_mem d.2
    have h2 : sizeOf d.1.2 < sizeOf d.1 := by
      obtain ⟨⟨dn, dt⟩, hd⟩ := d
      simp only [Prod.mk.sizeOf_spec]
      omega
    simp only [FsTree.mk.sizeOf_spec]
    omega

/-- Join path components with forward slashes.  The model works with paths
relative to the scanned root; since every absolute path produced by the
source shares the root as a common prefix, sorting the relative joined
strings orders them exactly as sorting the absolute ones. -/
def joinPath (dirs : List (List Char)) (file : List Char) : List Char :=
  dirs.foldr (fun d acc => d ++ '/' :: acc) file

/-- The classification-and-sort part of `find_ts_files` (src/xp/cats.py lines
242-253), from an explicit enumeration of walked (dirpath, filename, content)
entries: eligible files are classified by name, both groups are joined into
path strings and sorted. -/
def findTsFilesFrom (entries : List (List (List Char) × List Char × List Char)) :
    List (List Char) × List (List Char) :=
  (sortByLe strLe ((entries.filter (fun e => classifyFile e.2.1 == some false)).map
      (fun e => joinPath e.1 e.2.1)),
   sortByLe strLe ((entries.filter (fun e => classifyFile e.2.1 == some true)).map
      (fun e => joinPath e.1 e.2.1)))

/-- `find_ts_files` over a directory tree. -/
def findTsFiles (t : FsTree) : List (List Char) × List (List Char) :=
  findTsFilesFrom (walkTree t)

/-! ## Regex stage matchers (src/xp/cats.py lines 298-338)

Each source pattern is hand-compiled into a deterministic matcher over
`List Char`.  This is sound because at every choice point of these concrete
patterns the character classes on the two sides are disjoint (whitespace
versus word characters, quote versus non-quote, and so on), so the greedy
and lazy quantifiers have a unique viable resolution; the few places where
Python's engine genuinely backtracks (alternations, `;?` before `\s*$`) are
compiled as explicit ordered alternatives.  A matcher returns the rest of
the text after the matched span (plus its captures); `none` means the
pattern does not match at this position. -/

/-- The apostrophe character (code point 39). -/
def aposC : Char := Char.ofNat 39

/-- The opening brace character (code point 123). -/
def openBrace : Char := Char.ofNat 123

/-- The closing brace character (code point 125). -/
def closeBrace : Char := Char.ofNat 125

/-- Greedily consume `\s*`. -/
def dropWsL (s : List Char) : List Char := s.dropWhile isPySpace

/-- Consume a literal. -/
def lit (p s : List Char) : Option (List Char) :=
  if List.isPrefixOf p s then some (List.drop p.length s) else none

/-- Consume `\s+`: at least one whitespace character, then greedily the whole
run (the following pattern element is never a whitespace character, so the
greedy run cannot be backtracked into). -/
def ws1 : List Char → Option (List Char)
  | c :: cs => if isPySpace c then some (cs.dropWhile isPySpace) else none
  | [] => none

/-- Consume one quote character, `'` or `"` (the source patterns accept
either on both sides). -/
def quote1 : List Char → Option (List Char)
  | c :: cs => if c == aposC || c == '"' then some cs else none
  | [] => none

/-- A character allowed inside the quoted module specifier (`[^'"]`). -/
def notQuote (c : Char) : Bool := !(c == aposC) && !(c == '"')

/-- Consume `;?`. -/
def consumeSemi : List Char → List Char
  | ';' :: cs => cs
  | s => s

/-- The suffix of a whitespace run from its last newline on, if it has one. -/
def fromLastNewline : List Char → Option (List Char)
  | [] => none
  | c :: cs =>
    match fromLastNewline cs with
    | some r => some r
    | none => if c == '\n' then some (c :: cs) else none

/-- Consume `;?\s*$` (re.MULTILINE): optional semicolon, then the greedy
`\s*` constrained by `$`.  Python's backtracking consumes the whole
whitespace run when it reaches the end of the text, otherwise consumes up
to (and excluding) the last newline of the run; if neither is reachable the
whole match attempt fails (trying the `;?` without the semicolon then fails
as well, since `$` cannot hold at a semicolon). -/
def semiWsEol (s : List Char) : Option (List Char) :=
  let s1 := consumeSemi s
  let r := s1.takeWhile isPySpace
  let after := s1.dropWhile isPySpace
  if after.isEmpty then some []
  else
    match fromLastNewline r with
    | some suffix => some (suffix ++ after)
    | none => none

/-- Consume the `\.\.?/` opening of a relative specifier, returning the
consumed characters and the rest (the greedy `\.?` tries `../` before `./`,
but `/` and `.` are distinct characters, so the order is immaterial). -/
def relDotSlash : List Char → Option (List Char × List Char)
  | c1 :: r1 =>
    if c1 == '.' then
      match r1 with
      | c2 :: r2 =>
        if c2 == '/' then some ("./".data, r2)
        else if c2 == '.' then
          match r2 with
          | c3 :: r3 => if c3 == '/' then some ("../".data, r3) else none
          | [] => none
        else none
      | [] => none
    else none
  | [] => none

/-- Consume `['"](\.\.?/[^'"]+)['"]`, returning the captured path and the
rest. -/
def quotedRelPath (s : List Char) : Option (List Char × List Char) := do
  let s1 ← quote1 s
  let (pre, r) ← relDotSlash s1
  let body := r.takeWhile notQuote
  if body.isEmpty then none
  else do
    let s2 ← quote1 (r.dropWhile notQuote)
    pure (pre ++ body, s2)

/-- The tail `\s+from\s+['"](\.\.?/[^'"]+)['"];?` of `IMPORT_NAMESPACE_REGEX`
after the captured alias: returns the rest after the span and the captured
relative path. -/
def nsImportTail (s : List Char) : Option (List Char × List Char) := do
  let s7 ← ws1 s
  let s8 ← lit "from".data s7
  let s9 ← ws1 s8
  let (path, s10) ← quotedRelPath s9
  pure (consumeSemi s10, path)

/-- The alias capture `([a-zA-Z0-9_]+)` of `IMPORT_NAMESPACE_REGEX` together
with its tail, applied to the text following `import\s+\*\s+as\s+`. -/
def nsImportAfterAs (s : List Char) : Option (List Char × (List Char × List Char)) :=
  let al := s.takeWhile isWordChar
  if al.isEmpty then none
  else
    match nsImportTail (s.dropWhile isWordChar) with
    | some (rest, path) => some (rest, (al, path))
    | none => none

/-- Matcher for `IMPORT_NAMESPACE_REGEX` (src/xp/cats.py lines 300-303),
applied at a line start:
`^\s*import\s+\*\s+as\s+([a-zA-Z0-9_]+)\s+from\s+['"](\.\.?/[^'"]+)['"];?`.
Returns the rest after the span together with the captured (alias, relative
path). -/
def nsImportM (s : List Char) : Option (List Char × (List Char × List Char)) := do
  let s1 ← lit "import".data (dropWsL s)
  let s2 ← ws1 s1
  let s3 ← lit "*".data s2
  let s4 ← ws1 s3
  let s5 ← lit "as".data s4
  let s6 ← ws1 s5
  nsImportAfterAs s6

/-- Matcher for the tail `['"](\.\.?/[^'"]+)['"];?\s*$` shared by the
relative-import removal patterns. -/
def quotePathEol (s : List Char) : Option (List Char) := do
  let (_, s1) ← quotedRelPath s
  semiWsEol s1

/-- The `\{[^}]+\}` alternative of `IMPORT_RELATIVE_OTHER_PATTERN` followed by
`\s+from\s+` and the quoted path. -/
def braceClause (t : List Char) : Option (List Char) := do
  let t1 ← lit [openBrace] t
  let inner := t1.takeWhile (fun x => !(x == closeBrace))
  if inner.isEmpty then none
  else do
    let t2 ← lit [closeBrace] (t1.dropWhile (fun x => !(x == closeBrace)))
    let t3 ← ws1 t2
    let t4 ← lit "from".data t3
    let t5 ← ws1 t4
    quotePathEol t5

/-- The `\w+` alternative of `IMPORT_RELATIVE_OTHER_PATTERN` followed by
`\s+from\s+` and the quoted path. -/
def identClause (t : List Char) : Option (List Char) := do
  let w := t.takeWhile isWordChar
  if w.isEmpty then none
  else do
    let t1 ← ws1 (t.dropWhile isWordChar)
    let t2 ← lit "from".data t1
    let t3 ← ws1 t2
    quotePathEol t3

/-- The empty alternative of `IMPORT_RELATIVE_OTHER_PATTERN`: the group's own
`\s+from\s+` must find its whitespace inside the run that follows `import`,
so that run must have length at least two. -/
def emptyFromClause (wsRunLen : Nat) (t : List Char) : Option (List Char) := do
  if wsRunLen < 2 then none
  else do
    let t1 ← lit "from".data t
    let t2 ← ws1 t1
    quotePathEol t2

/-- Matcher for `IMPORT_RELATIVE_OTHER_PATTERN` (src/xp/cats.py lines
304-307), applied at a line start:
`^\s*import\s+(?:(?:\{[^}]+\}|\w+|)\s+from\s+)?['"](\.\.?/[^'"]+)['"];?\s*$`.
The group alternatives are tried in the regex order, then the group-absent
parse. -/
def relOtherM (s : List Char) : Option (List Char) := do
  let s1 ← lit "import".data (dropWsL s)
  match s1 with
  | c :: _ =>
    if isPySpace c then
      let run := s1.takeWhile isPySpace
      let t := s1.dropWhile isPySpace
      braceClause t <|> identClause t <|> emptyFromClause run.length t <|> quotePathEol t
    else none
  | [] => none

/-- Matcher for `IMPORT_RELATIVE_SIDE_EFFECT_PATTERN` (src/xp/cats.py lines
308-310): `^\s*import\s+['"](\.\.?/[^'"]+)['"];?\s*$`. -/
def relSideEffectM (s : List Char) : Option (List Char) := do
  let s1 ← lit "import".data (dropWsL s)
  let s2 ← ws1 s1
  quotePathEol s2

/-- Matcher for `REMOVE_NON_RELATIVE_SIDE_EFFECT` (src/xp/cats.py lines
311-313): `^\s*import\s+['"]([^./][^'"]*?)['"];?\s*` (note: no `$`, and the
trailing `\s*` greedily eats newlines). -/
def nonRelSideEffectM (s : List Char) : Option (List Char) := do
  let s1 ← lit "import".data (dropWsL s)
  let s2 ← ws1 s1
  let s3 ← quote1 s2
  match s3 with
  | f :: r =>
    if !(f == '.') && !(f == '/') then do
      let s4 ← quote1 (r.dropWhile notQuote)
      pure (dropWsL (consumeSemi s4))
    else none
  | [] => none

/-- Search for the earliest `)` whose tail matches `;?\s*$` (the lazy
`[\s\S]*?\)` of `REMOVE_ADD_MATCHERS_CALL`); a `)` whose tail fails is
swallowed by the lazy quantifier and scanning continues. -/
def closeParenEol : List Char → Option (List Char)
  | [] => none
  | c :: cs =>
    if c == ')' then
      match semiWsEol cs with
      | some r => some r
      | none => closeParenEol cs
    else closeParenEol cs

/-- Matcher for `REMOVE_ADD_MATCHERS_CALL` (src/xp/cats.py lines 336-338):
`^\s*jasmine\.addMatchers\s*\([\s\S]*?\);?\s*$`. -/
def addMatchersM (s : List Char) : Option (List Char) := do
  let s1 ← lit "jasmine.addMatchers".data (dropWsL s)
  let s2 ← lit "(".data (dropWsL s1)
  closeParenEol s2

/-- Try each keyword alternative in order; returns the matched keyword and
the rest.  Sound because no keyword in the source alternations is a prefix
of another, so at most one alternative can match. -/
def keywordAlt (kws : List (List Char)) (s : List Char) :
    Option (List Char × List Char) :=
  match kws with
  | [] => none
  | k :: rest =>
    match lit k s with
    | some r => some (k, r)
    | none => keywordAlt rest s

/-- An optional clause `(?:word\s+)?` (or `(\bword\b\s+)?`): present exactly
when the literal word is followed by at least one whitespace character (the
word boundary after the word is then automatic); returns the consumed text
(for capturing patterns) and the rest. -/
def optClauseCap (word : List Char) (s : List Char) : List Char × List Char :=
  match lit word s with
  | some r =>
    match r with
    | c :: _ =>
      if isPySpace c then (word ++ r.takeWhile isPySpace, r.dropWhile isPySpace)
      else ([], s)
    | [] => ([], s)
  | none => ([], s)

/-- Matcher for `EXPORT_NAMED_CAPTURE_REGEX` (src/xp/cats.py lines 324-327):
`^\s*export\s+(?:declare\s+)?(?:async\s+)?(class|function|const|let|var|enum)\s+([a-zA-Z0-9_]+)`.
Returns the rest and the captured name. -/
def exportNamedCapM (s : List Char) : Option (List Char × List Char) := do
  let s1 ← lit "export".data (dropWsL s)
  let s2 ← ws1 s1
  let s3 := (optClauseCap "declare".data s2).2
  let s4 := (optClauseCap "async".data s3).2
  let (_, s5) ← keywordAlt ["class".data, "function".data, "const".data, "let".data,
    "var".data, "enum".data] s4
  let s6 ← ws1 s5
  let name := s6.takeWhile isWordChar
  if name.isEmpty then none
  else pure (s6.dropWhile isWordChar, name)

/-- Matcher for `EXPORT_DEFAULT_CAPTURE_REGEX` (src/xp/cats.py lines
328-331):
`^\s*export\s+default\s+(?:(?:class|function)\s+(\w+)|(?:const|let|var)\s+(\w+))`;
the captured name is the one of whichever branch matched. -/
def exportDefaultCapM (s : List Char) : Option (List Char × List Char) := do
  let s1 ← lit "export".data (dropWsL s)
  let s2 ← ws1 s1
  let s3 ← lit "default".data s2
  let s4 ← ws1 s3
  let (_, s5) ← keywordAlt ["class".data, "function".data, "const".data, "let".data,
    "var".data] s4
  let s6 ← ws1 s5
  let name := s6.takeWhile isWordChar
  if name.isEmpty then none
  else pure (s6.dropWhile isWordChar, name)

/-- The last character of a (nonempty) list, as a singleton list. -/
def lastOf (l : List Char) : List Char :=
  match l.reverse with
  | c :: _ => [c]
  | [] => []

/-- Python `str.strip()` (whitespace at both ends). -/
def trimWs (l : List Char) : List Char :=
  ((l.dropWhile isPySpace).reverse.dropWhile isPySpace).reverse

/-- The clause `\s+as\s+(\w+)` of `EXPORT_LIST_ITEM_REGEX`: returns the
captured renamed-to name and the rest. -/
def asClause (r : List Char) : Option (List Char × List Char) := do
  let r1 ← ws1 r
  let r2 ← lit "as".data r1
  let r3 ← ws1 r2
  let w := r3.takeWhile isWordChar
  if w.isEmpty then none
  else pure (w, r3.dropWhile isWordChar)

/-- `EXPORT_LIST_ITEM_REGEX.finditer` (src/xp/cats.py line 335) over the
captured brace-list text: `\b(\w+)(?:\s+as\s+(\w+))?\b`, collecting per item
the renamed-to name when present, else the local name.  The fuel is the text
length; every step consumes at least one character, so it never runs out. -/
def listItemsAux : Nat → List Char → List (List Char)
  | 0, _ => []
  | _, [] => []
  | fuel + 1, c :: cs =>
    if isWordChar c then
      let r := (c :: cs).dropWhile isWordChar
      match asClause r with
      | some (w2, r2) => w2 :: listItemsAux fuel r2
      | none => ((c :: cs).takeWhile isWordChar) :: listItemsAux fuel r
    else listItemsAux fuel cs

/-- All item names captured from a brace-list text. -/
def listItems (l : List Char) : List (List Char) := listItemsAux l.length l

/-- Matcher for `EXPORT_NAMED_LIST_CAPTURE_REGEX` (src/xp/cats.py lines
332-334): `^\s*export\s*{\s*([^}]+?)\s*};?`.  The group is the text between
the braces with surrounding whitespace stripped (when that text is all
whitespace, the interplay of the greedy `\s*` and the lazy `[^}]+?` leaves
exactly its last character).  Returns the rest and the captured item names. -/
def exportNamedListCapM (s : List Char) : Option (List Char × List (List Char)) := do
  let s1 ← lit "export".data (dropWsL s)
  let s2 ← lit [openBrace] (dropWsL s1)
  let inner := s2.takeWhile (fun x => !(x == closeBrace))
  if inner.isEmpty then none
  else do
    let s3 ← lit [closeBrace] (s2.dropWhile (fun x => !(x == closeBrace)))
    let grp := if inner.all isPySpace then lastOf inner else trimWs inner
    pure (consumeSemi s3, listItems grp)

/-- The separator `(\s+|;|$)` after the declaration keyword of
`EXPORT_DECL_PATTERN`: a whitespace run, a semicolon, or the end of the
line/text (zero width).  Returns the captured text and the rest. -/
def declSep : List Char → Option (List Char × List Char)
  | [] => some ([], [])
  | c :: cs =>
    if isPySpace c then some ((c :: cs).takeWhile isPySpace, (c :: cs).dropWhile isPySpace)
    else if c == ';' then some ([';'], cs)
    else none

/-- Matcher for `EXPORT_DECL_PATTERN` (src/xp/cats.py lines 319-322):
`^(\s*)export\s+(?!default)(\bdeclare\b\s+)?(\basync\b\s+)?(class|function|const|let|var|enum|interface|type)(\s+|;|$)`
with replacement `\1\2\3\4\5`, i.e. the `export` keyword and its following
whitespace are dropped and everything else is kept. -/
def exportDeclM (s : List Char) : Option (List Char × List Char) := do
  let g1 := s.takeWhile isPySpace
  let s1 ← lit "export".data (s.dropWhile isPySpace)
  let s2 ← ws1 s1
  if List.isPrefixOf "default".data s2 then none
  else do
    let (g2, s3) := optClauseCap "declare".data s2
    let (g3, s4) := optClauseCap "async".data s3
    let (kw, s5) ← keywordAlt ["class".data, "function".data, "const".data, "let".data,
      "var".data, "enum".data, "interface".data, "type".data] s4
    let (g5, s6) ← declSep s5
    pure (s6, g1 ++ g2 ++ g3 ++ kw ++ g5)

/-- Matcher for `EXPORT_DEFAULT_PATTERN` (src/xp/cats.py line 323):
`^(\s*)export\s+default\s+` with replacement `\1/* export default */ `. -/
def exportDefaultM (s : List Char) : Option (List Char × List Char) := do
  let g1 := s.takeWhile isPySpace
  let s1 ← lit "export".data (s.dropWhile isPySpace)
  let s2 ← ws1 s1
  let s3 ← lit "default".data s2
  let s4 ← ws1 s3
  pure (s4, g1 ++ "/* export default */ ".data)

/-- The `(?:{[^}]+?}|\*)` alternative of `EXPORT_FROM_PATTERN`. -/
def braceOrStar : List Char → Option (List Char)
  | c :: cs =>
    if c == openBrace then
      let inner := cs.takeWhile (fun x => !(x == closeBrace))
      if inner.isEmpty then none
      else
        match cs.dropWhile (fun x => !(x == closeBrace)) with
        | d :: r => if d == closeBrace then some r else none
        | [] => none
    else if c == '*' then some cs
    else none
  | [] => none

/-- Matcher for `EXPORT_FROM_PATTERN` (src/xp/cats.py lines 314-317):
`^\s*export\s+(?:{[^}]+?}|\*)\s+from\s+['"](\.\.?/[^'"]+)['"];?\s*`
(removed entirely; the trailing `\s*` greedily eats newlines). -/
def exportFromM (s : List Char) : Option (List Char) := do
  let s1 ← lit "export".data (dropWsL s)
  let s2 ← ws1 s1
  let s3 ← braceOrStar s2
  let s4 ← ws1 s3
  let s5 ← lit "from".data s4
  let s6 ← ws1 s5
  let (_, s7) ← quotedRelPath s6
  pure (dropWsL (consumeSemi s7))

/-- Matcher for `EXPORT_LIST_PATTERN` (src/xp/cats.py line 318):
`^\s*export\s+{\s*[^}\s]+?\s*};?\s*` (note `[^}\s]`: the single listed item
may not contain whitespace, so multi-item lists do not match). -/
def exportListM (s : List Char) : Option (List Char) := do
  let s1 ← lit "export".data (dropWsL s)
  let s2 ← ws1 s1
  let s3 ← lit [openBrace] s2
  let s4 := dropWsL s3
  let item := s4.takeWhile (fun c => !(isPySpace c) && !(c == closeBrace))
  if item.isEmpty then none
  else do
    let s5 := s4.dropWhile (fun c => !(isPySpace c) && !(c == closeBrace))
    let s6 ← lit [closeBrace] (dropWsL s5)
    pure (dropWsL (consumeSemi s6))

/-! ## Scan engines (re.sub / re.findall with MULTILINE `^`)

`re.sub` scans the original text left to right; a `^`-anchored pattern is
tried at the start of the text and right after each newline; after a match,
scanning resumes at the end of the matched span (whose position in the
original text determines whether the next position is a line start).  The
`rest.length < s.length` guard is always true for the matchers above, which
consume at least one character; it makes the recursion structurally
well-founded. -/

/-- Fuel-based generic `re.sub` engine for line-anchored patterns: `m`
returns the rest after the matched span and the replacement text.  The fuel
bounds the remaining text length (a match consumes at least one character,
which the `rest.length < ...` check enforces), making the recursion
structural and kernel-computable. -/
def subLineAnchoredAux (m : List Char → Option (List Char × List Char)) :
    Nat → Bool → List Char → List Char
  | 0, _, s => s
  | _ + 1, _, [] => []
  | fuel + 1, atStart, c :: cs =>
    match (if atStart then m (c :: cs) else none) with
    | some (rest, repl) =>
      if rest.length < (c :: cs).length then
        let n := (c :: cs).length - rest.length
        repl ++ (if ((c :: cs).take n).getLast? == some '\n'
                 then subLineAnchoredAux m fuel true rest
                 else subLineAnchoredAux m fuel false rest)
      else c :: subLineAnchoredAux m fuel (c == '\n') cs
    | none => c :: subLineAnchoredAux m fuel (c == '\n') cs

/-- Generic `re.sub` engine for line-anchored patterns. -/
def subLineAnchored (m : List Char → Option (List Char × List Char))
    (atStart : Bool) (s : List Char) : List Char :=
  subLineAnchoredAux m s.length atStart s

/-- Fuel-based generic `re.findall` / `re.finditer` engine for line-anchored
patterns: collects the captures of the same matches `subLineAnchored` would
replace. -/
def findAllLineAnchoredAux {α : Type} (m : List Char → Option (List Char × α)) :
    Nat → Bool → List Char → List α
  | 0, _, _ => []
  | _ + 1, _, [] => []
  | fuel + 1, atStart, c :: cs =>
    match (if atStart then m (c :: cs) else none) with
    | some (rest, a) =>
      if rest.length < (c :: cs).length then
        a :: (if ((c :: cs).take ((c :: cs).length - rest.length)).getLast? == some '\n'
              then findAllLineAnchoredAux m fuel true rest
              else findAllLineAnchoredAux m fuel false rest)
      else findAllLineAnchoredAux m fuel (c == '\n') cs
    | none => findAllLineAnchoredAux m fuel (c == '\n') cs

/-- Generic `re.findall` / `re.finditer` engine for line-anchored patterns. -/
def findAllLineAnchored {α : Type} (m : List Char → Option (List Char × α))
    (atStart : Bool) (s : List Char) : List α :=
  findAllLineAnchoredAux m s.length atStart s

/-- Index of the first occurrence of `pat` in the text. -/
def findPat (pat : List Char) : List Char → Option Nat
  | [] => if pat.isEmpty then some 0 else none
  | c :: cs =>
    if List.isPrefixOf pat (c :: cs) then some 0
    else (findPat pat cs).map (fun i => i + 1)

/-- Match `/\*\*.*?@license.*?\*/` (`LICENSE_BLOCK_PATTERN`, re.DOTALL,
src/xp/cats.py line 299) at a position known to start with `/**`: the lazy
quantifiers take the earliest `@license` after the opener and then the
earliest `*/` after it.  Returns the rest of the text after the match. -/
def licenseMatchRest (s : List Char) : Option (List Char) := do
  let r := List.drop 3 s
  let i ← findPat "@license".data r
  let j ← findPat "*/".data (List.drop (i + 8) r)
  pure (List.drop (j + 2) (List.drop (i + 8) r))

/-- `LICENSE_BLOCK_PATTERN.sub("", content)`: the pattern is unanchored, so
every position is a candidate; a match is replaced by nothing and scanning
resumes after it.  The length guard is always true (a match spans at least
the opener). -/
def stripLicenseAux : Nat → List Char → List Char
  | 0, s => s
  | _ + 1, [] => []
  | fuel + 1, c :: cs =>
    if List.isPrefixOf "/**".data (c :: cs) then
      match licenseMatchRest (c :: cs) with
      | some rest =>
        if rest.length < (c :: cs).length then stripLicenseAux fuel rest
        else c :: stripLicenseAux fuel cs
      | none => c :: stripLicenseAux fuel cs
    else c :: stripLicenseAux fuel cs

/-- The `LICENSE_BLOCK_PATTERN.sub("", content)` pass. -/
def stripLicense (s : List Char) : List Char := stripLicenseAux s.length s

/-! ## Per-file transformation (`process_and_collect`, src/xp/cats.py lines 342-402) -/

/-- Add an element to a Python set modelled as an insertion-ordered
duplicate-free list. -/
def setAdd (x : List Char) (s : List (List Char)) : List (List Char) :=
  if s.any (fun y => y == x) then s else s ++ [x]

/-- `set.update` / iterated `set.add`. -/
def setAddAll (xs : List (List Char)) (s : List (List Char)) : List (List Char) :=
  xs.foldl (fun acc x => setAdd x acc) s

/-- The result of transforming one file: the transformed body (before the
final trim), the captured exported names, and the resolved namespace-import
aliases. -/
structure FileResult where
  body : List Char
  exports : List (List Char)
  nsImports : List (List Char × List Char)

/-- The per-file pipeline of `process_and_collect` (src/xp/cats.py lines
357-396) on one file's original content.  `resolve` is the
`resolve_relative_path` oracle already specialised to this file's path (the
real function consults the file system).  Stages, in source order: strip
license blocks; findall then strip namespace imports, resolving each
captured pair; strip other relative imports, relative side-effect imports,
non-relative side-effect imports, `jasmine.addMatchers` calls; capture
exports from the original content; strip export keywords, default-export
prefixes, re-export-from statements and single-item export lists. -/
def processOne (resolve : List Char → Option (List Char)) (original : List Char) :
    FileResult :=
  let c1 := stripLicense original
  let nsPairs := findAllLineAnchored nsImportM true c1
  let c2 := subLineAnchored (fun s => (nsImportM s).map (fun p => (p.1, []))) true c1
  let nsResolved := nsPairs.foldl (fun acc p =>
    match resolve p.2 with
    | some tgt => dSet p.1 tgt acc
    | none => acc) []
  let c3 := subLineAnchored (fun s => (relOtherM s).map (fun r => (r, []))) true c2
  let c4 := subLineAnchored (fun s => (relSideEffectM s).map (fun r => (r, []))) true c3
  let c5 := subLineAnchored (fun s => (nonRelSideEffectM s).map (fun r => (r, []))) true c4
  let c6 := subLineAnchored (fun s => (addMatchersM s).map (fun r => (r, []))) true c5
  let exps1 := (findAllLineAnchored exportNamedCapM true original).foldl
    (fun acc n => setAdd n acc) []
  let exps2 := (findAllLineAnchored exportDefaultCapM true original).foldl
    (fun acc n => setAdd n acc) exps1
  let exps3 := (findAllLineAnchored exportNamedListCapM true original).foldl
    (fun acc items => setAddAll items acc) exps2
  let c7 := subLineAnchored exportDeclM true c6
  let c8 := subLineAnchored exportDefaultM true c7
  let c9 := subLineAnchored (fun s => (exportFromM s).map (fun r => (r, []))) true c8
  let c10 := subLineAnchored (fun s => (exportListM s).map (fun r => (r, []))) true c9
  { body := c10, exports := exps3, nsImports := nsResolved }

/-- The export-capture part of the pipeline on its own: the three capture
regexes applied to a content, in source order. -/
def captureExports (original : List Char) : List (List Char) :=
  let exps1 := (findAllLineAnchored exportNamedCapM true original).foldl
    (fun acc n => setAdd n acc) []
  let exps2 := (findAllLineAnchored exportDefaultCapM true original).foldl
    (fun acc n => setAdd n acc) exps1
  (findAllLineAnchored exportNamedListCapM true original).foldl
    (fun acc items => setAddAll items acc) exps2

/-- The `// --- BEGIN FILE: <path> ---` section header (src/xp/cats.py lines
256-258; the model's paths are already forward-slash separated, so the
`os.sep` normalisation is the identity). -/
def sectionHeader (rel : List Char) : List Char :=
  "\n\n// --- BEGIN FILE: ".data ++ rel ++ " ---\n".data

/-- The `// --- END FILE: <path> ---` section footer (lines 261-263). -/
def sectionFooter (rel : List Char) : List Char :=
  "\n// --- END FILE: ".data ++ rel ++ " ---\n".data

/-- The state threaded through `process_and_collect`: collected chunks and the
two shared maps. -/
structure CollectState where
  chunks : List (List Char)
  exportsMap : List (List Char × List (List Char))
  nsMap : List (List Char × List (List Char × List Char))

/-- One iteration of the `for file_path in files` loop of
`process_and_collect` (src/xp/cats.py lines 351-396): transform the file,
record its resolved namespace imports (when nonempty) and its captured
exports (when nonempty), and append a wrapped chunk unless the trimmed body
is empty. -/
def collectStep (resolve : List Char → List Char → Option (List Char))
    (contents : List Char → List Char) (st : CollectState) (path : List Char) :
    CollectState :=
  let r := processOne (resolve path) (contents path)
  let st1 := if r.nsImports.isEmpty then st
    else { st with nsMap := dSet path r.nsImports st.nsMap }
  let st2 := if r.exports.isEmpty then st1
    else
      let merged := setAddAll r.exports ((dGet path st1.exportsMap).getD [])
      { st1 with exportsMap := dSet path merged st1.exportsMap }
  let trimmed := trimWs r.body
  if trimmed.isEmpty then st2
  else { st2 with chunks :=
    st2.chunks ++ [sectionHeader path ++ trimmed ++ sectionFooter path] }

/-- `process_and_collect` over a list of (relative-path) files. -/
def processAndCollect (resolve : List Char → List Char → Option (List Char))
    (contents : List Char → List Char) (files : List (List Char))
    (st : CollectState) : CollectState :=
  files.foldl (collectStep resolve contents) st

/-! ## Assembly (`assemble_and_write`, src/xp/cats.py lines 441-528)

The license banner (`LICENSE_TEXT`) and the test-harness payload
(`TEST_HARNESS_CODE`) are opaque literal constants of the source (the spec
treats both as out-of-scope assets injected verbatim), so the assembly
functions take them as parameters. -/

/-- Python `", ".join(symbols)`. -/
def joinSep (sep : List Char) : List (List Char) → List Char
  | [] => []
  | [x] => x
  | x :: xs => x ++ sep ++ joinSep sep xs

/-- The synthesized declaration `export const <alias> = { <members> };`
(src/xp/cats.py lines 483-484), with the members joined by `", "`. -/
def aliasDecl (a : List Char) (symbols : List (List Char)) : List Char :=
  "export const ".data ++ a ++ " = \x7b ".data ++ joinSep ", ".data symbols ++ " \x7d;".data

/-- The warning `    [Warn] No exports found for alias '<alias>'. Skipping
const export.` (src/xp/cats.py lines 487-489). -/
def warnNoExports (a : List Char) : List Char :=
  "    [Warn] No exports found for alias ".data ++
    (aposC :: a ++ [aposC]) ++ ". Skipping const export.".data

/-- The sorted exported-symbol list of one canonical alias's target:
`sorted(list(exports_map.get(target_path, set())))` (src/xp/cats.py line
481). -/
def aliasSymbols (canonicalToTarget : List (List Char × List Char))
    (exportsMap : List (List Char × List (List Char))) (a : List Char) :
    List (List Char) :=
  sortByLe strLe ((dGet ((dGet a canonicalToTarget).getD []) exportsMap).getD [])

/-- The emitted `export const` declarations of the main bundle's alias block:
one per canonical alias (in sorted order) whose target has recorded
exports. -/
def mainAliasDeclsBody (canonicalToTarget : List (List Char × List Char))
    (exportsMap : List (List Char × List (List Char))) : List (List Char) :=
  (sortByLe strLe (canonicalToTarget.map (fun p => p.1))).filterMap (fun a =>
    if (aliasSymbols canonicalToTarget exportsMap a).isEmpty then none
    else some (aliasDecl a (aliasSymbols canonicalToTarget exportsMap a)))

/-- The warnings of the main bundle's alias block: one per canonical alias
whose target has no recorded exports. -/
def mainAliasWarns (canonicalToTarget : List (List Char × List Char))
    (exportsMap : List (List Char × List (List Char))) : List (List Char) :=
  (sortByLe strLe (canonicalToTarget.map (fun p => p.1))).filterMap (fun a =>
    if (aliasSymbols canonicalToTarget exportsMap a).isEmpty then
      some (warnNoExports a)
    else none)

/-- The main bundle's alias-object block (src/xp/cats.py lines 474-492):
canonical aliases in sorted order; one declaration per alias whose target
has recorded exports (members sorted); a warning instead when it has none.
Returns the prefix declaration lines and the warnings. -/
def mainAliasDecls (canonicalToTarget : List (List Char × List Char))
    (exportsMap : List (List Char × List (List Char))) :
    List (List Char) × List (List Char) :=
  if (sortByLe strLe (canonicalToTarget.map (fun p => p.1))).isEmpty then ([], [])
  else
    ("// --- Exported Namespace Alias Objects ---".data ::
        mainAliasDeclsBody canonicalToTarget exportsMap ++
        ["// --- End Exported Namespace Alias Objects ---\n".data],
     mainAliasWarns canonicalToTarget exportsMap)

/-- The test bundle's import prefix (src/xp/cats.py lines 456-473): one
statement importing all canonical aliases in from the compiled main
bundle, surrounded by fixed comment lines; empty when there are no
canonical aliases. -/
def testPrefixImports (canonicalToTarget : List (List Char × List Char)) :
    List (List Char) :=
  let allAliases := sortByLe strLe (canonicalToTarget.map (fun p => p.1))
  if allAliases.isEmpty then []
  else
    ["// --- Imports from Main Bundle ---".data,
     "// These imports bring the alias objects (like \x27math\x27, \x27utils\x27) into scope.".data,
     "// Original test code using `math.someFunction()` will now work correctly.".data,
     "import \x7b ".data ++ joinSep ", ".data allAliases ++ " \x7d from \x27./cats.js\x27;".data,
     "// --- End Imports ---\n".data]

/-- `assemble_and_write` minus the file write (src/xp/cats.py lines 441-528):
assemble the complete text of one bundle — license, prefix block, harness
and trailer for the test bundle, chunks — and then apply the alias-redirect
rewrite over the fully assembled text. -/
def assembleText (license harness : List Char) (codeChunks : List (List Char))
    (exportsMap : List (List Char × List (List Char)))
    (canonicalToTarget : List (List Char × List Char))
    (redirects : List (List Char × List Char)) (isTest : Bool) : List Char :=
  let prefixParts : List (List Char) :=
    if isTest then (testPrefixImports canonicalToTarget).map (fun p => p ++ ['\n'])
    else ((mainAliasDecls canonicalToTarget exportsMap).1).map (fun p => p ++ ['\n'])
  let parts : List (List Char) :=
    if isTest then
      ([license, "\n\n".data] ++ prefixParts ++ [harness, "\n\n".data]) ++ codeChunks ++
        ["\n\n// --- Autorun Tests ---\nrunAllTestsAndReport();\n".data]
    else ([license, "\n\n".data] ++ prefixParts) ++ codeChunks
  applyAliasRewrites redirects (parts.foldr (fun a b => a ++ b) [])

/-- The text of all parts of a bundle before the alias rewrite. -/
def assembledParts (license harness : List Char) (codeChunks : List (List Char))
    (exportsMap : List (List Char × List (List Char)))
    (canonicalToTarget : List (List Char × List Char)) (isTest : Bool) : List Char :=
  let prefixParts : List (List Char) :=
    if isTest then (testPrefixImports canonicalToTarget).map (fun p => p ++ ['\n'])
    else ((mainAliasDecls canonicalToTarget exportsMap).1).map (fun p => p ++ ['\n'])
  let parts : List (List Char) :=
    if isTest then
      ([license, "\n\n".data] ++ prefixParts ++ [harness, "\n\n".data]) ++ codeChunks ++
        ["\n\n// --- Autorun Tests ---\nrunAllTestsAndReport();\n".data]
    else ([license, "\n\n".data] ++ prefixParts) ++ codeChunks
  parts.foldr (fun a b => a ++ b) []

/-- The whole engine on an enumeration of walked entries (`main`,
src/xp/cats.py lines 542-611): classify and sort, process the main group
then the test group against the shared maps, plan aliases, and assemble both
bundles. -/
def runPipeline (license harness : List Char)
    (resolve : List Char → List Char → Option (List Char))
    (contents : List Char → List Char)
    (entries : List (List (List Char) × List Char × List Char)) :
    List Char × List Char :=
  let ft := findTsFilesFrom entries
  let stMain := processAndCollect resolve contents ft.1 ⟨[], [], []⟩
  let stTest := processAndCollect resolve contents ft.2 { stMain with chunks := [] }
  let plan := analyzeImportsAndPlan stTest.nsMap
  (assembleText license harness stMain.chunks stTest.exportsMap
     plan.canonicalToTarget plan.redirects false,
   assembleText license harness stTest.chunks stTest.exportsMap
     plan.canonicalToTarget plan.redirects true)

/-! ## Small dictionary lemmas -/

theorem dGet_cons_pos {α : Type} (k : List Char) (q : List Char × α)
    (d : List (List Char × α)) (h : (q.1 == k) = true) :
    dGet k (q :: d) = some q.2 := by
  simp only [dGet]
  rw [List.find?_cons_of_pos d h]
  rfl

theorem dGet_cons_neg {α : Type} (k : List Char) (q : List Char × α)
    (d : List (List Char × α)) (h : (q.1 == k) = false) :
    dGet k (q :: d) = dGet k d := by
  simp only [dGet]
  rw [List.find?_cons_of_neg d (by simp [h])]

theorem dGet_dSet_self {α : Type} (k : List Char) (v : α) (d : List (List Char × α)) :
    dGet k (dSet k v d) = some v := by
  induction d with
  | nil =>
    show dGet k [(k, v)] = some v
    rw [dGet_cons_pos k (k, v) [] (by simp)]
  | cons p rest ih =>
    obtain ⟨k', v'⟩ := p
    by_cases h : k' == k
    · simp only [dSet, if_pos h]
      rw [dGet_cons_pos k (k, v) rest (by simp)]
    · simp only [dSet, if_neg h]
      rw [dGet_cons_neg k (k', v') _ (Bool.not_eq_true _ ▸ h)]
      exact ih

theorem dGet_append_of_some {α : Type} (k : List Char) (v : α)
    (d e : List (List Char × α)) (h : dGet k d = some v) :
    dGet k (d ++ e) = some v := by
  induction d with
  | nil => simp [dGet, List.find?_nil] at h
  | cons p rest ih =>
    by_cases hp : p.1 == k
    · rw [List.cons_append, dGet_cons_pos k p _ hp]
      rw [dGet_cons_pos k p rest hp] at h
      exact h
    · rw [List.cons_append, dGet_cons_neg k p _ (Bool.not_eq_true _ ▸ hp)]
      rw [dGet_cons_neg k p rest (Bool.not_eq_true _ ▸ hp)] at h
      exact ih h

theorem dMem_of_dGet_some {α : Type} (k : List Char) (v : α)
    (d : List (List Char × α)) (h : dGet k d = some v) : dMem k d = true := by
  induction d with
  | nil => simp [dGet, List.find?_nil] at h
  | cons p rest ih =>
    simp only [dMem, List.any_cons, Bool.or_eq_true]
    by_cases hp : p.1 == k
    · left; exact hp
    · rw [dGet_cons_neg k p rest (Bool.not_eq_true _ ▸ hp)] at h
      right
      exact ih h

/-! ## Facts about the planner (claims C1 and C5) -/

theorem planAlias_canonical_invariant (c : List Char) (st : PlanState) (a : List Char) :
    (planAlias c st a).canonicalToTarget = st.canonicalToTarget := by
  unfold planAlias
  split
  · split
    · rfl
    · split
      · rfl
      · rfl
  · split
    · rfl
    · rfl

theorem foldPlanAlias_canonical_invariant (c : List Char) (l : List (List Char))
    (st : PlanState) :
    (l.foldl (planAlias c) st).canonicalToTarget = st.canonicalToTarget := by
  induction l generalizing st with
  | nil => rfl
  | cons a rest ih =>
    simp only [List.foldl_cons]
    rw [ih, planAlias_canonical_invariant]

/-- C1: for every set of namespace-import observations and each distinct
resolved target, the planner's canonical alias is the element of the
target's alias set that is minimal under "shortest string first, ties broken
by lexicographically smallest": it belongs to the alias set, it is below
every member under that order, and `planTarget` records exactly it as the
canonical alias of the target in `canonical_to_target`. -/
theorem C1_canonical_alias_minimal (aliases : List (List Char)) (h : aliases ≠ []) :
    minAlias aliases ∈ aliases ∧
    (∀ a ∈ aliases, aliasKeyLe (minAlias aliases) a = true) ∧
    (∀ (st : PlanState) (target : List Char),
      dGet (minAlias aliases) (planTarget st (target, aliases)).canonicalToTarget =
        some target) := by
  refine ⟨minAlias_mem aliases h, minAlias_min aliases, ?_⟩
  intro st target
  match aliases, h with
  | a :: rest, _ =>
    simp only [planTarget]
    rw [foldPlanAlias_canonical_invariant]
    exact dGet_dSet_self _ _ _

/-- Witness for C1 at the claim's concrete example: with aliases `longerAlias`
and `short`, the canonical alias is `short`. -/
theorem C1_canonical_alias_minimal_witness :
    minAlias ["longerAlias".data, "short".data] = "short".data ∧
    minAlias ["longerAlias".data, "short".data] ∈ ["longerAlias".data, "short".data] :=
  ⟨by decide,
   (C1_canonical_alias_minimal ["longerAlias".data, "short".data] (by decide)).1⟩

/-- C3: for every alias pair whose observed alias differs from its canonical
form, the final rewrite (a) leaves no word-boundary occurrence of
`<alias>.` anywhere in its output, (b) changes nothing in a text that has no
such occurrence (so it rewrites exactly the boundary occurrences), and (c)
is applied by the assembler to the entire assembled text — license header,
harness payload and all parts included — not per chunk. -/
theorem C3_rewrite_whole_text (old new : List Char) (how : AllWord old) (ho : old ≠ [])
    (hnw : AllWord new) (hn : new ≠ []) (hne : old ≠ new) :
    (∀ s, hasAliasOcc old false (rewriteAlias old new false s) = false) ∧
    (∀ s, hasAliasOcc old false s = false → rewriteAlias old new false s = s) ∧
    (∀ license harness chunks em ctt redirects isTest,
      assembleText license harness chunks em ctt redirects isTest =
        applyAliasRewrites redirects
          (assembledParts license harness chunks em ctt isTest)) :=
  ⟨fun s => rewriteAlias_no_occ how ho hnw hn hne s false,
   fun s h => rewriteAlias_of_no_occ s false h,
   fun _ _ _ _ _ _ _ => rfl⟩

/-- Witness for C3 on a text containing a license-style comment and a string
literal: after the rewrite no boundary occurrence of the old alias remains. -/
theorem C3_rewrite_whole_text_witness :
    hasAliasOcc "longerAlias".data false
      (rewriteAlias "longerAlias".data "short".data false
        "/** longerAlias.a */ \x27longerAlias.b\x27 longerAlias.c".data) = false :=
  (C3_rewrite_whole_text "longerAlias".data "short".data (by decide) (by decide)
    (by decide) (by decide) (by decide)).1 _

/-- A namespace-imports map on which the planner produces chained redirects:
`bb` is an alias of target `A` (canonical `a`) in one file and of target `B`
(where it is itself canonical) in another. -/
def nsMapCollide : List (List Char × List (List Char × List Char)) :=
  [("f1".data, [("bb".data, "A".data), ("ccc".data, "B".data)]),
   ("f2".data, [("a".data, "A".data), ("bb".data, "B".data)])]

/-- C4 counterexample: on the redirect map the planner produces from
`nsMapCollide` (namely `bb → a`, `a → a`, `ccc → bb`), applying the full
rewrite pass twice to the text `ccc.f` gives `a.f`, while applying it once
gives `bb.f` — the pass is not idempotent. -/
theorem C4_counterexample :
    applyAliasRewrites (analyzeImportsAndPlan nsMapCollide).redirects
        (applyAliasRewrites (analyzeImportsAndPlan nsMapCollide).redirects "ccc.f".data) ≠
      applyAliasRewrites (analyzeImportsAndPlan nsMapCollide).redirects "ccc.f".data := by
  decide

/-- C4 (amended): the rewrite pass is idempotent for every redirect map
whose non-identity pairs have nonempty word-character aliases on both sides
and in which no canonical value of a non-identity redirect is itself the
source of a non-identity redirect — that is, whenever no alias string is at
once a non-canonical alias of one target and the canonical alias of
another. -/
theorem C4_rewrite_idempotent_amended (R : List (List Char × List Char))
    (h : goodRedirects R) (t : List Char) :
    applyAliasRewrites R (applyAliasRewrites R t) = applyAliasRewrites R t := by
  unfold applyAliasRewrites
  apply foldRewrites_id
  intro p hp hpne
  apply foldRewrites_establishes R t
    (fun q hq hqne => ⟨(h q hq hqne).1, (h q hq hqne).2.1, (h q hq hqne).2.2.1,
      (h q hq hqne).2.2.2.1⟩)
    (fun p' hp' hpne' q hq hqne => (h p' hp' hpne').2.2.2.2 q hq hqne)
    p hp hpne

/-- Witness for the amended C4 on a concrete chain-free redirect map. -/
theorem C4_rewrite_idempotent_amended_witness :
    goodRedirects [("bb".data, "a".data), ("a".data, "a".data)] ∧
    applyAliasRewrites [("bb".data, "a".data), ("a".data, "a".data)]
        (applyAliasRewrites [("bb".data, "a".data), ("a".data, "a".data)]
          "x bb.y a.z".data) =
      applyAliasRewrites [("bb".data, "a".data), ("a".data, "a".data)] "x bb.y a.z".data :=
  ⟨by decide, C4_rewrite_idempotent_amended _ (by decide) _⟩

/-! ## First-wins and warning behaviour of the planner (claim C5) -/

theorem planAlias_redirect_preserved (c : List Char) (st : PlanState) (b a v : List Char)
    (h : dGet a st.redirects = some v) :
    dGet a (planAlias c st b).redirects = some v := by
  unfold planAlias
  split
  · split
    · exact h
    · split
      · exact dGet_append_of_some a v _ _ h
      · exact h
  · split
    · exact dGet_append_of_some a v _ _ h
    · exact h

theorem foldPlanAlias_redirect_preserved (c : List Char) (l : List (List Char))
    (st : PlanState) (a v : List Char) (h : dGet a st.redirects = some v) :
    dGet a (l.foldl (planAlias c) st).redirects = some v := by
  induction l generalizing st with
  | nil => exact h
  | cons b rest ih =>
    simp only [List.foldl_cons]
    exact ih _ (planAlias_redirect_preserved c st b a v h)

theorem planTarget_redirect_preserved (st : PlanState)
    (entry : List Char × List (List Char)) (a v : List Char)
    (h : dGet a st.redirects = some v) :
    dGet a (planTarget st entry).redirects = some v := by
  unfold planTarget
  match entry with
  | (target, []) => exact h
  | (target, x :: rest) => exact foldPlanAlias_redirect_preserved _ _ _ a v h

theorem planAlias_warn_mono (c : List Char) (st : PlanState) (b w : List Char)
    (h : w ∈ st.warnings) : w ∈ (planAlias c st b).warnings := by
  unfold planAlias
  split
  · split
    · exact List.mem_append_left _ h
    · split
      · exact h
      · exact h
  · split
    · exact h
    · exact h

theorem foldPlanAlias_warn_mono (c : List Char) (l : List (List Char))
    (st : PlanState) (w : List Char) (h : w ∈ st.warnings) :
    w ∈ (l.foldl (planAlias c) st).warnings := by
  induction l generalizing st with
  | nil => exact h
  | cons b rest ih =>
    simp only [List.foldl_cons]
    exact ih _ (planAlias_warn_mono c st b w h)

theorem foldPlanAlias_warns (c : List Char) (l : List (List Char)) (st : PlanState)
    (a v : List Char) (ha : a ∈ l) (hne : a ≠ c)
    (hg : dGet a st.redirects = some v) (hv : v ≠ c) :
    warnFor a ∈ (l.foldl (planAlias c) st).warnings := by
  induction l generalizing st with
  | nil => simp at ha
  | cons b rest ih =>
    simp only [List.foldl_cons]
    rcases List.mem_cons.mp ha with hab | ha'
    · subst hab
      have hstep : warnFor a ∈ (planAlias c st a).warnings := by
        unfold planAlias
        rw [if_pos (by simp [hne])]
        rw [if_pos (by
          refine Bool.and_eq_true_iff.mpr ⟨dMem_of_dGet_some a v _ hg, ?_⟩
          rw [hg]
          simp [hv])]
        exact List.mem_append_right _ (List.mem_singleton.mpr rfl)
      exact foldPlanAlias_warn_mono c rest _ _ hstep
    · exact ih _ ha' (planAlias_redirect_preserved c st b a v hg)

theorem warnFor_inj {a b : List Char} (h : warnFor a = warnFor b) : a = b := by
  unfold warnFor at h
  have h2 := List.append_cancel_left h
  have h4 : a ++ [Char.ofNat 39] = b ++ [Char.ofNat 39] := by
    injection h2
  exact List.append_cancel_right h4

theorem foldPlanAlias_warn_count_canonical (c : List Char) (l : List (List Char))
    (st : PlanState) :
    ((l.foldl (planAlias c) st).warnings).count (warnFor c) =
      (st.warnings).count (warnFor c) := by
  induction l generalizing st with
  | nil => rfl
  | cons b rest ih =>
    simp only [List.foldl_cons]
    rw [ih]
    unfold planAlias
    split
    · rename_i hb
      split
      · show List.count (warnFor c) (st.warnings ++ [warnFor b]) = List.count (warnFor c) st.warnings
        rw [List.count_append]
        have hbc : b ≠ c := by simpa using hb
        have hz : List.count (warnFor c) [warnFor b] = 0 :=
          List.count_eq_zero.mpr (by
            simp only [List.mem_singleton]
            intro he
            exact hbc (warnFor_inj he.symm))
        omega
      · split
        · rfl
        · rfl
    · split
      · rfl
      · rfl

/-- C5 counterexample: on `nsMapCollide` the alias string `bb` is assigned to
two different canonical targets during planning — it is grouped into target
`A` (whose canonical alias is `a`) and into target `B` (where `bb` itself is
canonical).  The first-registered mapping `bb → a` is kept, but NO warning
is logged: the planner's warning list is empty. -/
theorem C5_counterexample :
    targetToAliases nsMapCollide =
      [("A".data, ["bb".data, "a".data]), ("B".data, ["ccc".data, "bb".data])] ∧
    minAlias ["bb".data, "a".data] = "a".data ∧
    minAlias ["ccc".data, "bb".data] = "bb".data ∧
    dGet "bb".data (analyzeImportsAndPlan nsMapCollide).redirects = some "a".data ∧
    (analyzeImportsAndPlan nsMapCollide).warnings = [] := by
  decide

/-- C5 (amended): when an alias string collides across targets, (a) the
first-registered mapping for it is kept in the redirect dict through all
later planning steps; (b) a warning is logged when the later target's
canonical alias differs from the alias itself and from its registered
redirect; but (c) when the colliding alias IS the later target's canonical
alias, the collision is silent: no `Alias conflict` warning about it is
added. -/
theorem C5_first_wins_and_warning_conditions
    (entries : List (List Char × List (List Char))) (st : PlanState)
    (a v : List Char) (h : dGet a st.redirects = some v) :
    dGet a (entries.foldl planTarget st).redirects = some v ∧
    (∀ target aliases, a ∈ aliases → a ≠ minAlias aliases → v ≠ minAlias aliases →
      warnFor a ∈ (planTarget st (target, aliases)).warnings) ∧
    (∀ target aliases, a = minAlias aliases →
      ((planTarget st (target, aliases)).warnings).count (warnFor a) =
        (st.warnings).count (warnFor a)) := by
  refine ⟨?_, ?_, ?_⟩
  · induction entries generalizing st with
    | nil => exact h
    | cons e rest ih =>
      simp only [List.foldl_cons]
      exact ih _ (planTarget_redirect_preserved st e a v h)
  · intro target aliases ha hne hv
    unfold planTarget
    match aliases, ha with
    | x :: rest, ha =>
      exact foldPlanAlias_warns (minAlias (x :: rest)) (x :: rest) _ a v ha hne h hv
  · intro target aliases hac
    unfold planTarget
    match aliases with
    | [] => rfl
    | x :: rest =>
      rw [hac]
      exact foldPlanAlias_warn_count_canonical (minAlias (x :: rest)) (x :: rest) _

/-- Witness for the amended C5: with `xx` already redirected to `b`, planning
a later target whose alias set is `xx, c` (canonical `c`) keeps `xx → b`
and logs the conflict warning. -/
theorem C5_first_wins_and_warning_conditions_witness :
    dGet "xx".data
        (([("T2".data, ["xx".data, "c".data])].foldl planTarget
          ⟨[("xx".data, "b".data)], [], []⟩).redirects) = some "b".data ∧
    warnFor "xx".data ∈
      (planTarget ⟨[("xx".data, "b".data)], [], []⟩
        ("T2".data, ["xx".data, "c".data])).warnings :=
  ⟨(C5_first_wins_and_warning_conditions [("T2".data, ["xx".data, "c".data])]
      ⟨[("xx".data, "b".data)], [], []⟩ "xx".data "b".data (by decide)).1,
   (C5_first_wins_and_warning_conditions [("T2".data, ["xx".data, "c".data])]
      ⟨[("xx".data, "b".data)], [], []⟩ "xx".data "b".data (by decide)).2.1
     "T2".data ["xx".data, "c".data] (by decide) (by decide) (by decide)⟩

/-! ## Sorting facts (claims C6 and C8) -/

theorem insertLe_perm {α : Type} (le : α → α → Bool) (a : α) (l : List α) :
    (insertLe le a l).Perm (a :: l) := by
  induction l with
  | nil => exact List.Perm.refl _
  | cons b t ih =>
    simp only [insertLe]
    split
    · exact List.Perm.refl _
    · exact (List.Perm.cons b ih).trans (List.Perm.swap a b t)

theorem sortByLe_perm {α : Type} (le : α → α → Bool) (l : List α) :
    (sortByLe le l).Perm l := by
  induction l with
  | nil => exact List.Perm.refl _
  | cons a t ih =>
    simp only [sortByLe, List.foldr_cons] at *
    exact (insertLe_perm le a _).trans (ih.cons a)

theorem insertLe_pairwise {α : Type} (le : α → α → Bool)
    (htot : ∀ x y, (le x y || le y x) = true)
    (htrans : ∀ x y z, le x y = true → le y z = true → le x z = true)
    (a : α) (l : List α) (hl : List.Pairwise (fun x y => le x y = true) l) :
    List.Pairwise (fun x y => le x y = true) (insertLe le a l) := by
  induction l with
  | nil => exact List.pairwise_singleton _ a
  | cons b t ih =>
    simp only [insertLe]
    by_cases hab : le a b = true
    · rw [if_pos hab]
      refine List.Pairwise.cons ?_ hl
      intro x hx
      rcases List.mem_cons.mp hx with hxb | hxt
      · subst hxb; exact hab
      · exact htrans a b x hab ((List.pairwise_cons.mp hl).1 x hxt)
    · rw [if_neg hab]
      have hba : le b a = true := by
        have := htot a b
        rcases Bool.or_eq_true_iff.mp this with h1 | h1
        · exact absurd h1 hab
        · exact h1
      rcases List.pairwise_cons.mp hl with ⟨hbt, ht⟩
      refine List.Pairwise.cons ?_ (ih ht)
      intro x hx
      have := (insertLe_perm le a t).mem_iff.mp hx
      rcases List.mem_cons.mp this with hxa | hxt
      · subst hxa; exact hba
      · exact hbt x hxt

theorem sortByLe_pairwise {α : Type} (le : α → α → Bool)
    (htot : ∀ x y, (le x y || le y x) = true)
    (htrans : ∀ x y z, le x y = true → le y z = true → le x z = true)
    (l : List α) :
    List.Pairwise (fun x y => le x y = true) (sortByLe le l) := by
  induction l with
  | nil => exact List.Pairwise.nil
  | cons a t ih =>
    simp only [sortByLe, List.foldr_cons] at *
    exact insertLe_pairwise le htot htrans a _ ih

theorem strLt_asymm {a b : List Char} (h1 : strLt a b = true) (h2 : strLt b a = true) :
    False := by
  have := strLt_trans a b a h1 h2
  rw [strLt_irrefl a] at this
  exact absurd this (by simp)

theorem strLe_total (a b : List Char) : (strLe a b || strLe b a) = true := by
  unfold strLe
  by_cases h1 : strLt b a = true
  · by_cases h2 : strLt a b = true
    · exact absurd (strLt_trans _ _ _ h1 h2) (by simp [strLt_irrefl])
    · simp [Bool.not_eq_true _ ▸ h2]
  · simp [Bool.not_eq_true _ ▸ h1]

theorem strLe_trans (a b c : List Char) (h1 : strLe a b = true) (h2 : strLe b c = true) :
    strLe a c = true := by
  unfold strLe at *
  by_contra hx
  have hca : strLt c a = true := by
    cases h : strLt c a
    · rw [h] at hx; simp at hx
    · rfl
  have hba : strLt b a = false := by
    cases h : strLt b a
    · rfl
    · rw [h] at h1; simp at h1
  have hcb : strLt c b = false := by
    cases h : strLt c b
    · rfl
    · rw [h] at h2; simp at h2
  by_cases hbc : b = c
  · subst hbc
    rw [hca] at hba
    simp at hba
  · rcases strLt_total b c hbc with h | h
    · have := strLt_trans b c a h hca
      rw [this] at hba
      simp at hba
    · rw [h] at hcb
      simp at hcb

theorem strLe_antisymm (a b : List Char) (h1 : strLe a b = true) (h2 : strLe b a = true) :
    a = b := by
  unfold strLe at h1 h2
  by_contra hne
  rcases strLt_total a b hne with h | h
  · rw [h] at h2; simp at h2
  · rw [h] at h1; simp at h1

theorem sortByLe_strLe_eq_of_perm (l1 l2 : List (List Char)) (h : l1.Perm l2) :
    sortByLe strLe l1 = sortByLe strLe l2 := by
  have hp : (sortByLe strLe l1).Perm (sortByLe strLe l2) :=
    (sortByLe_perm strLe l1).trans (h.trans (sortByLe_perm strLe l2).symm)
  have hs1 := sortByLe_pairwise strLe strLe_total strLe_trans l1
  have hs2 := sortByLe_pairwise strLe strLe_total strLe_trans l2
  exact @List.eq_of_perm_of_sorted (List Char) (fun x y => strLe x y = true)
    ⟨fun x y hxy hyx => strLe_antisymm x y hxy hyx⟩ _ _ hp hs1 hs2

/-- C6 counterexample: the file `a_Test.ts` has the source extension and is
not a declaration file, its name does NOT end with the test suffix
`_test.ts`, yet the classifier places it in the test group (the suffix
check is made on the lowercased name). -/
theorem C6_counterexample :
    classifyFile "a_Test.ts".data = some true ∧
    endsWithS "_test.ts".data "a_Test.ts".data = false ∧
    endsWithS ".ts".data "a_Test.ts".data = true ∧
    endsWithS ".d.ts".data "a_Test.ts".data = false := by
  decide

/-- C6 (amended): for every candidate file whose lowercased name has the
source extension and is not a declaration file, the classifier places it in
the test group iff its lowercased name ends with the test suffix and in the
main group otherwise (so it is in exactly one group); a classified entry's
path appears in the corresponding output list; and both output lists are
sorted lexicographically. -/
theorem C6_classification (name : List Char)
    (helig : (endsWithS ".ts".data (lowerStr name) &&
      !(endsWithS ".d.ts".data (lowerStr name))) = true) :
    (classifyFile name = some true ↔ endsWithS "_test.ts".data (lowerStr name) = true) ∧
    (classifyFile name = some false ↔ endsWithS "_test.ts".data (lowerStr name) = false) ∧
    (∀ (entries : List (List (List Char) × List Char × List Char)) e, e ∈ entries →
      e.2.1 = name →
      (endsWithS "_test.ts".data (lowerStr name) = true →
        joinPath e.1 e.2.1 ∈ (findTsFilesFrom entries).2) ∧
      (endsWithS "_test.ts".data (lowerStr name) = false →
        joinPath e.1 e.2.1 ∈ (findTsFilesFrom entries).1)) ∧
    (∀ (entries : List (List (List Char) × List Char × List Char)),
      List.Pairwise (fun a b => strLe a b = true) (findTsFilesFrom entries).1 ∧
      List.Pairwise (fun a b => strLe a b = true) (findTsFilesFrom entries).2) := by
  have hcl : classifyFile name = some (endsWithS "_test.ts".data (lowerStr name)) := by
    unfold classifyFile
    rw [if_pos helig]
  refine ⟨?_, ?_, ?_, ?_⟩
  · rw [hcl]
    constructor
    · intro h; exact (Option.some.injEq _ _ ▸ h)
    · intro h; rw [h]
  · rw [hcl]
    constructor
    · intro h; exact (Option.some.injEq _ _ ▸ h)
    · intro h; rw [h]
  · intro entries e he hn
    constructor
    · intro ht
      have hpe : (classifyFile e.2.1 == some true) = true := by
        rw [hn, hcl, ht]; simp
      have hmem : e ∈ entries.filter (fun x => classifyFile x.2.1 == some true) :=
        List.mem_filter.mpr ⟨he, hpe⟩
      have hmap : joinPath e.1 e.2.1 ∈
          (entries.filter (fun x => classifyFile x.2.1 == some true)).map
            (fun x => joinPath x.1 x.2.1) :=
        List.mem_map.mpr ⟨e, hmem, rfl⟩
      exact (sortByLe_perm strLe _).mem_iff.mpr hmap
    · intro ht
      have hpe : (classifyFile e.2.1 == some false) = true := by
        rw [hn, hcl, ht]; simp
      have hmem : e ∈ entries.filter (fun x => classifyFile x.2.1 == some false) :=
        List.mem_filter.mpr ⟨he, hpe⟩
      have hmap : joinPath e.1 e.2.1 ∈
          (entries.filter (fun x => classifyFile x.2.1 == some false)).map
            (fun x => joinPath x.1 x.2.1) :=
        List.mem_map.mpr ⟨e, hmem, rfl⟩
      exact (sortByLe_perm strLe _).mem_iff.mpr hmap
  · intro entries
    exact ⟨sortByLe_pairwise strLe strLe_total strLe_trans _,
      sortByLe_pairwise strLe strLe_total strLe_trans _⟩

/-- Witness for the amended C6 on the file `a_test.ts`: it is eligible and
lands in the test group. -/
theorem C6_classification_witness :
    classifyFile "a_test.ts".data = some true ∧
    joinPath [] "a_test.ts".data ∈
      (findTsFilesFrom [([], "a_test.ts".data, [])]).2 :=
  ⟨((C6_classification "a_test.ts".data (by decide)).1).mpr (by decide),
   (((C6_classification "a_test.ts".data (by decide)).2.2.1
      [([], "a_test.ts".data, [])] ([], "a_test.ts".data, [])
      (by simp) rfl).1 (by decide))⟩

/-! ## Exclusion correctness of the walker (claim C7) -/

theorem mem_foldr_append {α β : Type} (g : α → List β) (l : List α) (x : β) :
    x ∈ l.foldr (fun d acc => g d ++ acc) [] ↔ ∃ d ∈ l, x ∈ g d := by
  induction l with
  | nil => simp
  | cons a t ih =>
    simp only [List.foldr_cons, List.mem_append, ih, List.mem_cons]
    constructor
    · rintro (h | ⟨d, hd, hx⟩)
      · exact ⟨a, Or.inl rfl, h⟩
      · exact ⟨d, Or.inr hd, hx⟩
    · rintro ⟨d, (rfl | hd), hx⟩
      · exact Or.inl hx
      · exact Or.inr ⟨d, hd, hx⟩

theorem walkTree_allowed :
    ∀ (n : Nat) (t : FsTree), sizeOf t ≤ n →
    ∀ e ∈ walkTree t, ∀ d ∈ e.1, allowedDir d = true := by
  intro n
  induction n with
  | zero =>
    intro t h
    obtain ⟨dirs, files⟩ := t
    simp [FsTree.mk.sizeOf_spec] at h
  | succ n ih =>
    intro t hle e he d hd
    obtain ⟨dirs, files⟩ := t
    rw [walkTree] at he
    rcases List.mem_append.mp he with hf | hrec
    · rcases List.mem_map.mp hf with ⟨f, _, rfl⟩
      simp at hd
    · rcases (mem_foldr_append _ _ _).mp hrec with ⟨dd, hdd, hx⟩
      by_cases hal : allowedDir dd.1.1 = true
      · rw [if_pos hal] at hx
        rcases List.mem_map.mp hx with ⟨e', he', rfl⟩
        rcases List.mem_cons.mp hd with hdh | hdt
        · subst hdh; exact hal
        · have hsz : sizeOf dd.1.2 ≤ n := by
            have h1 := List.sizeOf_lt_of_mem dd.2
            have h2 : sizeOf dd.1.2 < sizeOf dd.1 := by
              obtain ⟨⟨dn, dt⟩, hmem⟩ := dd
              simp only [Prod.mk.sizeOf_spec]
              omega
            simp only [FsTree.mk.sizeOf_spec] at hle
            omega
          exact ih dd.1.2 hsz e' he' d hdt
      · rw [if_neg hal] at hx
        simp at hx

/-- C7: no file reported by the walker — and hence no path in either output
list of `find_ts_files` — lies under an excluded directory component
(`node_modules`, `dist`, `build`, or dot-prefixed): excluded directories are
pruned before descending, so their subtrees are never walked. -/
theorem C7_excluded_dirs_never_walked (t : FsTree) :
    (∀ e ∈ walkTree t, ∀ d ∈ e.1, allowedDir d = true) ∧
    (∀ s ∈ (findTsFiles t).1, ∃ e, e ∈ walkTree t ∧ s = joinPath e.1 e.2.1 ∧
      ∀ d ∈ e.1, allowedDir d = true) ∧
    (∀ s ∈ (findTsFiles t).2, ∃ e, e ∈ walkTree t ∧ s = joinPath e.1 e.2.1 ∧
      ∀ d ∈ e.1, allowedDir d = true) := by
  have hall := walkTree_allowed (sizeOf t) t le_rfl
  refine ⟨hall, ?_, ?_⟩
  · intro s hs
    have hmap := (sortByLe_perm strLe _).mem_iff.mp hs
    rcases List.mem_map.mp hmap with ⟨e, he, rfl⟩
    have he' := (List.mem_filter.mp he).1
    exact ⟨e, he', rfl, hall e he'⟩
  · intro s hs
    have hmap := (sortByLe_perm strLe _).mem_iff.mp hs
    rcases List.mem_map.mp hmap with ⟨e, he, rfl⟩
    have he' := (List.mem_filter.mp he).1
    exact ⟨e, he', rfl, hall e he'⟩

/-- C8: the engine is a pure function of the set of walked entries: for any
two enumeration orders of the same entries, the classifier produces
identical (sorted) main and test lists, and the whole pipeline produces
byte-identical main and test bundle texts. -/
theorem C8_determinism (e1 e2 : List (List (List Char) × List Char × List Char))
    (hperm : e1.Perm e2) (license harness : List Char)
    (resolve : List Char → List Char → Option (List Char))
    (contents : List Char → List Char) :
    findTsFilesFrom e1 = findTsFilesFrom e2 ∧
    runPipeline license harness resolve contents e1 =
      runPipeline license harness resolve contents e2 := by
  have hft : findTsFilesFrom e1 = findTsFilesFrom e2 := by
    unfold findTsFilesFrom
    have h1 : sortByLe strLe ((e1.filter (fun e => classifyFile e.2.1 == some false)).map
        (fun e => joinPath e.1 e.2.1)) =
      sortByLe strLe ((e2.filter (fun e => classifyFile e.2.1 == some false)).map
        (fun e => joinPath e.1 e.2.1)) :=
      sortByLe_strLe_eq_of_perm _ _ ((hperm.filter _).map _)
    have h2 : sortByLe strLe ((e1.filter (fun e => classifyFile e.2.1 == some true)).map
        (fun e => joinPath e.1 e.2.1)) =
      sortByLe strLe ((e2.filter (fun e => classifyFile e.2.1 == some true)).map
        (fun e => joinPath e.1 e.2.1)) :=
      sortByLe_strLe_eq_of_perm _ _ ((hperm.filter _).map _)
    rw [h1, h2]
  refine ⟨hft, ?_⟩
  unfold runPipeline
  rw [hft]

/-- Witness for C8 on two enumerations of the same two files in swapped
order. -/
theorem C8_determinism_witness :
    findTsFilesFrom [([], "b.ts".data, "y".data), ([], "a.ts".data, "x".data)] =
      findTsFilesFrom [([], "a.ts".data, "x".data), ([], "b.ts".data, "y".data)] ∧
    runPipeline [] [] (fun _ _ => none) (fun _ => [])
        [([], "b.ts".data, "y".data), ([], "a.ts".data, "x".data)] =
      runPipeline [] [] (fun _ _ => none) (fun _ => [])
        [([], "a.ts".data, "x".data), ([], "b.ts".data, "y".data)] :=
  C8_determinism _ _
    (List.Perm.swap ([], "a.ts".data, "x".data) ([], "b.ts".data, "y".data) [])
    [] [] (fun _ _ => none) (fun _ => [])

/-! ## Empty-body files still record their maps (claim C9) -/

theorem setAdd_mem_self (x : List Char) (s : List (List Char)) : x ∈ setAdd x s := by
  unfold setAdd
  split
  · rename_i hs
    rcases List.any_eq_true.mp hs with ⟨y, hy, hxy⟩
    exact (beq_iff_eq.mp hxy) ▸ hy
  · exact List.mem_append_right _ (List.mem_singleton.mpr rfl)

theorem setAdd_mem_of_mem (x y : List Char) (s : List (List Char)) (h : y ∈ s) :
    y ∈ setAdd x s := by
  unfold setAdd
  split
  · exact h
  · exact List.mem_append_left _ h

theorem setAddAll_mem_of_mem (xs : List (List Char)) (s : List (List Char)) (y : List Char)
    (h : y ∈ s) : y ∈ setAddAll xs s := by
  induction xs generalizing s with
  | nil => exact h
  | cons x rest ih =>
    simp only [setAddAll, List.foldl_cons] at *
    exact ih _ (setAdd_mem_of_mem x y s h)

theorem setAddAll_mem (xs : List (List Char)) (s : List (List Char)) :
    ∀ x ∈ xs, x ∈ setAddAll xs s := by
  induction xs generalizing s with
  | nil => intro x hx; simp at hx
  | cons a rest ih =>
    intro x hx
    simp only [setAddAll, List.foldl_cons] at *
    rcases List.mem_cons.mp hx with hxa | hxr
    · subst hxa
      exact setAddAll_mem_of_mem rest _ x (setAdd_mem_self x s)
    · exact ih _ x hxr

/-- C9: a file whose transformed body is empty after trimming contributes no
code chunk, but its resolved namespace-import aliases and its captured
exported names (when any were observed) are still recorded in the shared
maps. -/
theorem C9_empty_body_contributes_no_chunk
    (resolve : List Char → List Char → Option (List Char))
    (contents : List Char → List Char) (st : CollectState) (path : List Char)
    (h : trimWs (processOne (resolve path) (contents path)).body = []) :
    (collectStep resolve contents st path).chunks = st.chunks ∧
    ((processOne (resolve path) (contents path)).nsImports ≠ [] →
      dGet path (collectStep resolve contents st path).nsMap =
        some (processOne (resolve path) (contents path)).nsImports) ∧
    ((processOne (resolve path) (contents path)).exports ≠ [] →
      ∃ s, dGet path (collectStep resolve contents st path).exportsMap = some s ∧
        ∀ n ∈ (processOne (resolve path) (contents path)).exports, n ∈ s) := by
  have htrim : (trimWs (processOne (resolve path) (contents path)).body).isEmpty = true := by
    rw [h]; rfl
  unfold collectStep
  rw [if_pos htrim]
  by_cases hns : (processOne (resolve path) (contents path)).nsImports.isEmpty
  · rw [if_pos hns]
    by_cases hex : (processOne (resolve path) (contents path)).exports.isEmpty
    · rw [if_pos hex]
      refine ⟨rfl, ?_, ?_⟩
      · intro hne
        exact absurd (List.isEmpty_iff.mp hns) hne
      · intro hne
        exact absurd (List.isEmpty_iff.mp hex) hne
    · rw [if_neg hex]
      refine ⟨rfl, ?_, ?_⟩
      · intro hne
        exact absurd (List.isEmpty_iff.mp hns) hne
      · intro _
        refine ⟨_, dGet_dSet_self _ _ _, ?_⟩
        intro n hn
        exact setAddAll_mem _ _ n hn
  · rw [if_neg hns]
    by_cases hex : (processOne (resolve path) (contents path)).exports.isEmpty
    · rw [if_pos hex]
      refine ⟨rfl, ?_, ?_⟩
      · intro _
        exact dGet_dSet_self _ _ _
      · intro hne
        exact absurd (List.isEmpty_iff.mp hex) hne
    · rw [if_neg hex]
      refine ⟨rfl, ?_, ?_⟩
      · intro _
        exact dGet_dSet_self _ _ _
      · intro _
        refine ⟨_, dGet_dSet_self _ _ _, ?_⟩
        intro n hn
        exact setAddAll_mem _ _ n hn

/-- Witness for C9 on a file consisting of a namespace import and a bare
export list: the transformed body is empty, so no chunk is added, yet the
export name `foo` and the resolved alias `A` are recorded. -/
theorem C9_empty_body_contributes_no_chunk_witness :
    (collectStep (fun _ _ => some "T".data)
        (fun _ => "import * as A from \x27./m\x27;\nexport \x7b foo \x7d;".data)
        ⟨[], [], []⟩ "p.ts".data).chunks = ([] : List (List Char)) ∧
    dGet "p.ts".data (collectStep (fun _ _ => some "T".data)
        (fun _ => "import * as A from \x27./m\x27;\nexport \x7b foo \x7d;".data)
        ⟨[], [], []⟩ "p.ts".data).nsMap =
      some (processOne ((fun (_ _ : List Char) => some "T".data) "p.ts".data)
        ((fun _ => "import * as A from \x27./m\x27;\nexport \x7b foo \x7d;".data)
          "p.ts".data)).nsImports :=
  ⟨(C9_empty_body_contributes_no_chunk (fun _ _ => some "T".data)
      (fun _ => "import * as A from \x27./m\x27;\nexport \x7b foo \x7d;".data)
      ⟨[], [], []⟩ "p.ts".data (by decide)).1,
   (C9_empty_body_contributes_no_chunk (fun _ _ => some "T".data)
      (fun _ => "import * as A from \x27./m\x27;\nexport \x7b foo \x7d;".data)
      ⟨[], [], []⟩ "p.ts".data (by decide)).2.1 (by decide)⟩

/-! ## Export fidelity of the main alias block (claim C2) -/

theorem count_filterMap_eq_countP {α β : Type} [BEq β] (f : α → Option β)
    (l : List α) (x : β) :
    (l.filterMap f).count x = l.countP (fun a => f a == some x) := by
  induction l with
  | nil => rfl
  | cons a t ih =>
    cases hf : f a with
    | none =>
      rw [List.filterMap_cons_none hf, List.countP_cons, ih, hf]
      simp
    | some b =>
      rw [List.filterMap_cons_some hf, List.count_cons, List.countP_cons, ih, hf]
      cases hbx : b == x
      · simp [show (some b == some x) = (b == x) from rfl, hbx]
      · simp [show (some b == some x) = (b == x) from rfl, hbx]

theorem dGet_some_mem_keys {α : Type} {k : List Char} {v : α}
    {d : List (List Char × α)} (h : dGet k d = some v) :
    k ∈ d.map (fun p => p.1) := by
  induction d with
  | nil => simp [dGet, List.find?_nil] at h
  | cons p rest ih =>
    by_cases hp : p.1 == k
    · simp only [List.map_cons, List.mem_cons]
      left
      exact (beq_iff_eq.mp hp).symm
    · rw [dGet_cons_neg k p rest (Bool.not_eq_true _ ▸ hp)] at h
      simp only [List.map_cons, List.mem_cons]
      right
      exact ih h

theorem wordBlock_sep_inj {c : Char} (hc : isWordChar c = false) :
    ∀ (u v x y : List Char), AllWord u → AllWord v →
    u ++ c :: x = v ++ c :: y → u = v := by
  intro u
  induction u with
  | nil =>
    intro v x y _ hv h
    cases v with
    | nil => rfl
    | cons b vs =>
      simp only [List.nil_append, List.cons_append, List.cons.injEq] at h
      have hb : isWordChar b = true := hv b (List.mem_cons_self b vs)
      rw [← h.1] at hb
      rw [hb] at hc
      exact absurd hc (by simp)
  | cons a us ih =>
    intro v x y hu hv h
    cases v with
    | nil =>
      simp only [List.cons_append, List.nil_append, List.cons.injEq] at h
      have ha : isWordChar a = true := hu a (List.mem_cons_self a us)
      rw [h.1] at ha
      rw [ha] at hc
      exact absurd hc (by simp)
    | cons b vs =>
      simp only [List.cons_append, List.cons.injEq] at h
      rw [h.1, ih vs x y (fun z hz => hu z (List.mem_cons_of_mem a hz))
        (fun z hz => hv z (List.mem_cons_of_mem b hz)) h.2]

theorem countP_beq_eq_one_of_nodup_mem (l : List (List Char)) (al : List Char)
    (hnd : l.Nodup) (hmem : al ∈ l) : l.countP (fun a => a == al) = 1 := by
  induction l with
  | nil => simp at hmem
  | cons b t ih =>
    rw [List.countP_cons]
    rcases List.mem_cons.mp hmem with hba | hm
    · have hbt : b ∉ t := (List.nodup_cons.mp hnd).1
      have hz : t.countP (fun a => a == al) = 0 := by
        rw [List.countP_eq_zero]
        intro a ha
        simp only [beq_iff_eq]
        intro he
        rw [he, hba] at ha
        exact hbt ha
      have hbeq : (b == al) = true := beq_iff_eq.mpr hba.symm
      simp [hz, hbeq]
    · have hone := ih (List.nodup_cons.mp hnd).2 hm
      have hb : (b == al) = false := by
        simp only [beq_eq_false_iff_ne]
        intro he
        exact (List.nodup_cons.mp hnd).1 (he ▸ hm)
      simp [hone, hb]

theorem aliasDecl_alias_inj {a b : List Char} {s t : List (List Char)}
    (ha : AllWord a) (hb : AllWord b) (h : aliasDecl a s = aliasDecl b t) : a = b := by
  unfold aliasDecl at h
  have h' : "export const ".data ++
      (a ++ (" = \x7b ".data ++ (joinSep ", ".data s ++ " \x7d;".data))) =
      "export const ".data ++
      (b ++ (" = \x7b ".data ++ (joinSep ", ".data t ++ " \x7d;".data))) := by
    simpa [List.append_assoc] using h
  have h2 := List.append_cancel_left h'
  rw [show " = \x7b ".data ++ (joinSep ", ".data s ++ " \x7d;".data) =
      ' ' :: ("= \x7b ".data ++ (joinSep ", ".data s ++ " \x7d;".data)) from rfl] at h2
  rw [show " = \x7b ".data ++ (joinSep ", ".data t ++ " \x7d;".data) =
      ' ' :: ("= \x7b ".data ++ (joinSep ", ".data t ++ " \x7d;".data)) from rfl] at h2
  exact wordBlock_sep_inj (by decide) a b _ _ ha hb h2

/-- C2: for every canonical alias bound to a target in the canonical map
(whose keys are duplicate-free word-character strings, as the planner
produces), if the target has recorded exports then the main alias block
emits exactly one declaration for that alias, namely `export const <alias>
= { ... };` with member list the sorted recorded export set; if the target
has no recorded exports, no declaration for the alias is emitted and a
warning is logged.  Moreover the per-file transformer's recorded exports
are captured from the file's original, pre-transformation content. -/
theorem C2_export_fidelity (canonicalToTarget : List (List Char × List Char))
    (exportsMap : List (List Char × List (List Char))) (al target : List Char)
    (hnd : (canonicalToTarget.map (fun p => p.1)).Nodup)
    (hword : ∀ p ∈ canonicalToTarget, AllWord p.1)
    (hmem : dGet al canonicalToTarget = some target) :
    ((sortByLe strLe ((dGet target exportsMap).getD [])) ≠ [] →
      (mainAliasDeclsBody canonicalToTarget exportsMap).count
          (aliasDecl al (sortByLe strLe ((dGet target exportsMap).getD []))) = 1 ∧
      (∀ s, aliasDecl al s ∈ mainAliasDeclsBody canonicalToTarget exportsMap →
        aliasDecl al s =
          aliasDecl al (sortByLe strLe ((dGet target exportsMap).getD [])))) ∧
    ((sortByLe strLe ((dGet target exportsMap).getD [])) = [] →
      (∀ s, aliasDecl al s ∉ mainAliasDeclsBody canonicalToTarget exportsMap) ∧
      warnNoExports al ∈ mainAliasWarns canonicalToTarget exportsMap) ∧
    (∀ (resolve : List Char → Option (List Char)) (content : List Char),
      (processOne resolve content).exports = captureExports content) := by
  have hsym : aliasSymbols canonicalToTarget exportsMap al =
      sortByLe strLe ((dGet target exportsMap).getD []) := by
    unfold aliasSymbols
    rw [hmem]
    rfl
  have halw : AllWord al := by
    have hk := dGet_some_mem_keys hmem
    rcases List.mem_map.mp hk with ⟨p, hp, hpe⟩
    exact hpe ▸ hword p hp
  have halmem : al ∈ sortByLe strLe (canonicalToTarget.map (fun p => p.1)) :=
    (sortByLe_perm strLe _).mem_iff.mpr (dGet_some_mem_keys hmem)
  have hwords : ∀ a ∈ sortByLe strLe (canonicalToTarget.map (fun p => p.1)), AllWord a := by
    intro a ha
    have := (sortByLe_perm strLe _).mem_iff.mp ha
    rcases List.mem_map.mp this with ⟨p, hp, hpe⟩
    exact hpe ▸ hword p hp
  refine ⟨?_, ?_, fun _ _ => rfl⟩
  · intro hne
    have hnemp : (aliasSymbols canonicalToTarget exportsMap al).isEmpty = false := by
      rw [hsym]
      cases hs : sortByLe strLe ((dGet target exportsMap).getD [])
      · exact absurd hs hne
      · rfl
    constructor
    · rw [mainAliasDeclsBody, count_filterMap_eq_countP]
      have hcp : (sortByLe strLe (canonicalToTarget.map (fun p => p.1))).countP
          (fun a => (if (aliasSymbols canonicalToTarget exportsMap a).isEmpty then none
            else some (aliasDecl a (aliasSymbols canonicalToTarget exportsMap a))) ==
            some (aliasDecl al (sortByLe strLe ((dGet target exportsMap).getD [])))) =
          (sortByLe strLe (canonicalToTarget.map (fun p => p.1))).countP
            (fun a => a == al) := by
        apply List.countP_congr
        intro a ha
        constructor
        · intro hpa
          split at hpa
          · simp at hpa
          · have h1 := beq_iff_eq.mp hpa
            have heq := Option.some.inj h1
            exact beq_iff_eq.mpr (aliasDecl_alias_inj (hwords a ha) halw heq)
        · intro hpa
          have ha' : a = al := beq_iff_eq.mp hpa
          subst ha'
          rw [if_neg (by simp [hnemp])]
          rw [hsym]
          simp
      rw [hcp]
      have hcnt : (sortByLe strLe (canonicalToTarget.map (fun p => p.1))).countP
          (fun a => a == al) =
          (canonicalToTarget.map (fun p => p.1)).countP (fun a => a == al) :=
        (sortByLe_perm strLe _).countP_eq _
      rw [hcnt]
      exact countP_beq_eq_one_of_nodup_mem _ al hnd (dGet_some_mem_keys hmem)
    · intro s hs
      rcases List.mem_filterMap.mp hs with ⟨a, ha, hfa⟩
      split at hfa
      · simp at hfa
      · have heq := Option.some.inj hfa
        have haal : a = al := aliasDecl_alias_inj (hwords a ha) halw heq
        subst haal
        rw [← heq, hsym]
  · intro hemp
    have hemp' : (aliasSymbols canonicalToTarget exportsMap al).isEmpty = true := by
      rw [hsym, hemp]
      rfl
    constructor
    · intro s hs
      rcases List.mem_filterMap.mp hs with ⟨a, ha, hfa⟩
      split at hfa
      · simp at hfa
      · rename_i hne
        have heq := Option.some.inj hfa
        have haal : a = al := aliasDecl_alias_inj (hwords a ha) halw heq
        subst haal
        exact hne hemp'
    · exact List.mem_filterMap.mpr ⟨al, halmem, by rw [if_pos hemp']⟩

/-- Witness for C2 on a concrete canonical map and exports map. -/
theorem C2_export_fidelity_witness :
    (mainAliasDeclsBody [("A".data, "T".data), ("B".data, "T2".data)]
        [("T".data, ["foo".data, "bar".data])]).count
      (aliasDecl "A".data
        (sortByLe strLe ((dGet "T".data [("T".data, ["foo".data, "bar".data])]).getD [])))
      = 1 ∧
    warnNoExports "B".data ∈
      mainAliasWarns [("A".data, "T".data), ("B".data, "T2".data)]
        [("T".data, ["foo".data, "bar".data])] :=
  ⟨((C2_export_fidelity [("A".data, "T".data), ("B".data, "T2".data)]
      [("T".data, ["foo".data, "bar".data])] "A".data "T".data
      (by decide) (by decide) (by decide)).1 (by decide)).1,
   ((C2_export_fidelity [("A".data, "T".data), ("B".data, "T2".data)]
      [("T".data, ["foo".data, "bar".data])] "B".data "T2".data
      (by decide) (by decide) (by decide)).2.1 (by decide)).2⟩

/-! ## Facts for claim C10: non-relative namespace imports pass through

A namespace-style import statement with a non-relative module specifier,
`import * as A from 'p';` with `p` not starting in `./` or `../`.  The text
is spelled with explicit cons cells at the seams between its literal parts
and the symbolic alias and specifier. -/

/-- The text following `import * as ` in `nsStmt`: the alias, one space,
`from `, and the single-quoted specifier followed by a semicolon. -/
def nsAfterAsText (A p : List Char) : List Char :=
  A ++ (' ' :: ("from ".data ++ (Char.ofNat 39 :: (p ++ [Char.ofNat 39, ';']))))

/-- The statement `import * as A from \x27p\x27;`. -/
def nsStmt (A p : List Char) : List Char := "import * as ".data ++ nsAfterAsText A p

/-- A word character is never Python whitespace. -/
theorem notSpace_of_word {ch : Char} (h : isWordChar ch = true) : isPySpace ch = false := by
  cases hsp : isPySpace ch
  · rfl
  · exfalso
    simp only [isPySpace, Bool.or_eq_true, beq_iff_eq] at hsp
    rcases hsp with ((((h1|h1)|h1)|h1)|h1)|h1 <;> subst h1 <;> exact absurd h (by decide)

/-- On a specifier that does not open with `./` or `../`, the `\.\.?/`
element fails, whatever follows the specifier. -/
theorem relDotSlash_nonrel (p : List Char)
    (h1 : List.isPrefixOf "./".data p = false)
    (h2 : List.isPrefixOf "../".data p = false) :
    relDotSlash (p ++ [Char.ofNat 39, ';']) = none := by
  rw [show "./".data = ['.', '/'] from by decide] at h1
  rw [show "../".data = ['.', '.', '/'] from by decide] at h2
  cases p with
  | nil => rfl
  | cons c1 p1 =>
    rw [List.cons_append]
    by_cases hc1 : c1 = '.'
    · subst hc1
      cases p1 with
      | nil => rfl
      | cons c2 p2 =>
        by_cases hc2s : c2 = '/'
        · subst hc2s
          have ht : List.isPrefixOf ['.', '/'] ('.' :: '/' :: p2) = true := by
            simp [List.isPrefixOf]
          rw [ht] at h1
          exact Bool.noConfusion h1
        · by_cases hc2d : c2 = '.'
          · subst hc2d
            cases p2 with
            | nil => rfl
            | cons c3 p3 =>
              by_cases hc3 : c3 = '/'
              · subst hc3
                have ht : List.isPrefixOf ['.', '.', '/'] ('.' :: '.' :: '/' :: p3) = true := by
                  simp [List.isPrefixOf]
                rw [ht] at h2
                exact Bool.noConfusion h2
              · simp [relDotSlash, beq_eq_false_iff_ne.mpr hc3]
          · simp [relDotSlash, beq_eq_false_iff_ne.mpr hc2s, beq_eq_false_iff_ne.mpr hc2d]
    · simp [relDotSlash, beq_eq_false_iff_ne.mpr hc1]

/-- The quoted-relative-path element fails on a non-relative specifier. -/
theorem quotedRelPath_nonrel (p : List Char)
    (h1 : List.isPrefixOf "./".data p = false)
    (h2 : List.isPrefixOf "../".data p = false) :
    quotedRelPath (Char.ofNat 39 :: (p ++ [Char.ofNat 39, ';'])) = none := by
  have h3 := relDotSlash_nonrel p h1 h2
  unfold quotedRelPath
  change (relDotSlash (p ++ [Char.ofNat 39, ';'])).bind _ = none
  rw [h3]
  rfl

/-- The namespace-import tail fails on a non-relative specifier. -/
theorem nsImportTail_nonrel (p : List Char)
    (h1 : List.isPrefixOf "./".data p = false)
    (h2 : List.isPrefixOf "../".data p = false) :
    nsImportTail (' ' :: ("from ".data ++ (Char.ofNat 39 :: (p ++ [Char.ofNat 39, ';'])))) = none := by
  have h4 := quotedRelPath_nonrel p h1 h2
  unfold nsImportTail
  change (quotedRelPath (Char.ofNat 39 :: (p ++ [Char.ofNat 39, ';']))).bind _ = none
  rw [h4]
  rfl

/-- `takeWhile`/`dropWhile` of the word-character class split a word run off
at the first non-word character. -/
theorem takeWhile_word_append (A : List Char) (c : Char) (t : List Char)
    (hA : AllWord A) (hc : isWordChar c = false) :
    (A ++ (c :: t)).takeWhile isWordChar = A ∧ (A ++ (c :: t)).dropWhile isWordChar = c :: t := by
  induction A with
  | nil =>
    constructor
    · rw [List.nil_append, List.takeWhile_cons, hc]
      simp
    · rw [List.nil_append, List.dropWhile_cons, hc]
      simp
  | cons a A' ih =>
    have ha : isWordChar a = true := hA a (List.mem_cons_self a A')
    have ih' := ih (fun x hx => hA x (List.mem_cons_of_mem a hx))
    constructor
    · rw [List.cons_append, List.takeWhile_cons, ha]
      simp only [if_true]
      rw [ih'.1]
    · rw [List.cons_append, List.dropWhile_cons, ha]
      simp only [if_true]
      exact ih'.2

/-- A whitespace skip is the identity on a text opening with a word run. -/
theorem dropWhile_space_word (A t : List Char) (hA : AllWord A) (hA0 : A ≠ []) :
    List.dropWhile isPySpace (A ++ t) = A ++ t := by
  cases A with
  | nil => exact absurd rfl hA0
  | cons a A' =>
    rw [List.cons_append, List.dropWhile_cons,
      notSpace_of_word (hA a (List.mem_cons_self a A'))]
    simp

/-- `IMPORT_NAMESPACE_REGEX` does not match a namespace import with a
non-relative specifier. -/
theorem nsImportM_nsStmt_none (A p : List Char) (hA : AllWord A) (hA0 : A ≠ [])
    (h1 : List.isPrefixOf "./".data p = false)
    (h2 : List.isPrefixOf "../".data p = false) :
    nsImportM (nsStmt A p) = none := by
  have e1 : nsImportM (nsStmt A p) =
      nsImportAfterAs (List.dropWhile isPySpace (nsAfterAsText A p)) := rfl
  rw [e1]
  rw [show nsAfterAsText A p =
    A ++ (' ' :: ("from ".data ++ (Char.ofNat 39 :: (p ++ [Char.ofNat 39, ';'])))) from rfl]
  rw [dropWhile_space_word A _ hA hA0]
  simp only [nsImportAfterAs]
  rw [(takeWhile_word_append A ' ' _ hA (by decide)).1,
    (takeWhile_word_append A ' ' _ hA (by decide)).2]
  rw [if_neg (fun hE => hA0 (List.isEmpty_iff.mp hE))]
  rw [nsImportTail_nonrel p h1 h2]

/-- A `^`-anchored `re.sub` never fires away from a line start, so on
newline-free text a pass started off a line start is the identity. -/
theorem subLineAnchoredAux_false_id (m : List Char → Option (List Char × List Char)) :
    ∀ fuel s, '\n' ∉ s → subLineAnchoredAux m fuel false s = s := by
  intro fuel
  induction fuel with
  | zero => intro s _; rfl
  | succ fuel ih =>
    intro s hs
    cases s with
    | nil => rfl
    | cons c cs =>
      have hc : (c == '\n') = false :=
        beq_eq_false_iff_ne.mpr (fun h => hs (h ▸ List.mem_cons_self c cs))
      have e : subLineAnchoredAux m (fuel + 1) false (c :: cs) =
          c :: subLineAnchoredAux m fuel (c == '\n') cs := rfl
      rw [e, hc, ih cs (fun h => hs (List.mem_cons_of_mem c h))]

/-- A `^`-anchored `re.sub` is the identity on a newline-free text the
pattern does not match. -/
theorem subLineAnchored_none_id (m : List Char → Option (List Char × List Char))
    (s : List Char) (hm : m s = none) (hs : '\n' ∉ s) :
    subLineAnchored m true s = s := by
  cases s with
  | nil => rfl
  | cons c cs =>
    have hc : (c == '\n') = false :=
      beq_eq_false_iff_ne.mpr (fun h => hs (h ▸ List.mem_cons_self c cs))
    show subLineAnchoredAux m (c :: cs).length true (c :: cs) = c :: cs
    rw [List.length_cons]
    have e : subLineAnchoredAux m (cs.length + 1) true (c :: cs) =
        (match m (c :: cs) with
         | some (rest, repl) =>
           if rest.length < (c :: cs).length then
             repl ++ (if ((c :: cs).take ((c :: cs).length - rest.length)).getLast? == some '\n'
                      then subLineAnchoredAux m cs.length true rest
                      else subLineAnchoredAux m cs.length false rest)
           else c :: subLineAnchoredAux m cs.length (c == '\n') cs
         | none => c :: subLineAnchoredAux m cs.length (c == '\n') cs) := rfl
    rw [e, hm, hc, subLineAnchoredAux_false_id m cs.length cs
      (fun h => hs (List.mem_cons_of_mem c h))]

/-- A `^`-anchored `re.findall` finds nothing away from a line start on
newline-free text. -/
theorem findAllLineAnchoredAux_false_nil {α : Type} (m : List Char → Option (List Char × α)) :
    ∀ fuel s, '\n' ∉ s → findAllLineAnchoredAux m fuel false s = [] := by
  intro fuel
  induction fuel with
  | zero => intro s _; rfl
  | succ fuel ih =>
    intro s hs
    cases s with
    | nil => rfl
    | cons c cs =>
      have hc : (c == '\n') = false :=
        beq_eq_false_iff_ne.mpr (fun h => hs (h ▸ List.mem_cons_self c cs))
      have e : findAllLineAnchoredAux m (fuel + 1) false (c :: cs) =
          findAllLineAnchoredAux m fuel (c == '\n') cs := rfl
      rw [e, hc, ih cs (fun h => hs (List.mem_cons_of_mem c h))]

/-- A `^`-anchored `re.findall` finds nothing on a newline-free text the
pattern does not match. -/
theorem findAllLineAnchored_none_nil {α : Type} (m : List Char → Option (List Char × α))
    (s : List Char) (hm : m s = none) (hs : '\n' ∉ s) :
    findAllLineAnchored m true s = [] := by
  cases s with
  | nil => rfl
  | cons c cs =>
    have hc : (c == '\n') = false :=
      beq_eq_false_iff_ne.mpr (fun h => hs (h ▸ List.mem_cons_self c cs))
    show findAllLineAnchoredAux m (c :: cs).length true (c :: cs) = []
    rw [List.length_cons]
    have e : findAllLineAnchoredAux m (cs.length + 1) true (c :: cs) =
        (match m (c :: cs) with
         | some (rest, a) =>
           if rest.length < (c :: cs).length then
             a :: (if ((c :: cs).take ((c :: cs).length - rest.length)).getLast? == some '\n'
                   then findAllLineAnchoredAux m cs.length true rest
                   else findAllLineAnchoredAux m cs.length false rest)
           else findAllLineAnchoredAux m cs.length (c == '\n') cs
         | none => findAllLineAnchoredAux m cs.length (c == '\n') cs) := rfl
    rw [e, hm, hc, findAllLineAnchoredAux_false_nil m cs.length cs
      (fun h => hs (List.mem_cons_of_mem c h))]

/-- The license-stripping pass is the identity on a text in which no suffix
opens with `/**`. -/
theorem stripLicenseAux_id :
    ∀ fuel s, (∀ t, t <:+ s → List.isPrefixOf "/**".data t = false) →
      stripLicenseAux fuel s = s := by
  intro fuel
  induction fuel with
  | zero => intro s _; rfl
  | succ fuel ih =>
    intro s h
    cases s with
    | nil => rfl
    | cons c cs =>
      have hf : List.isPrefixOf "/**".data (c :: cs) = false := h (c :: cs) (List.suffix_refl _)
      simp only [stripLicenseAux, hf]
      rw [ih cs (fun t ht => h t (ht.trans (List.suffix_cons c cs)))]
      simp

/-- `stripLicense` is the identity when no suffix opens with `/**`. -/
theorem stripLicense_of_no_opener (s : List Char)
    (h : ∀ t, t <:+ s → List.isPrefixOf "/**".data t = false) : stripLicense s = s :=
  stripLicenseAux_id s.length s h

/-- A text with at most one `*` has no suffix opening with `/**`. -/
theorem no_opener_of_star_count (s : List Char) (h : List.count '*' s ≤ 1) :
    ∀ t, t <:+ s → List.isPrefixOf "/**".data t = false := by
  intro t ht
  cases hpf : List.isPrefixOf "/**".data t
  · rfl
  · exfalso
    have hq : "/**".data <+: t := List.isPrefixOf_iff_prefix.mp hpf
    obtain ⟨r, hr⟩ := hq
    have hct : List.count '*' t ≤ List.count '*' s := ht.sublist.count_le '*'
    rw [← hr, List.count_append] at hct
    rw [show List.count '*' "/**".data = 2 from by decide] at hct
    omega

/-- The statement `import * as A from \x27p\x27;` contains exactly the one
`*` of its namespace glob when the specifier contains none. -/
theorem count_star_nsStmt (A p : List Char) (hA : AllWord A)
    (hp : ∀ ch ∈ p, ch ≠ '*') : List.count '*' (nsStmt A p) ≤ 1 := by
  have cA : List.count '*' A = 0 := by
    rw [List.count_eq_zero]
    intro h
    exact absurd (hA '*' h) (by decide)
  have cp : List.count '*' p = 0 := by
    rw [List.count_eq_zero]
    intro h
    exact (hp '*' h) rfl
  have c1 : List.count '*' "import * as ".data = 1 := by decide
  have c2 : List.count '*' "from ".data = 0 := by decide
  simp [nsStmt, nsAfterAsText, List.count_append, List.count_cons, cA, cp, c1, c2]

/-- The statement is a single line when the specifier is. -/
theorem newline_not_mem_nsStmt (A p : List Char) (hA : AllWord A)
    (hp : ∀ ch ∈ p, ch ≠ '\n') : '\n' ∉ nsStmt A p := by
  intro h
  simp only [nsStmt, nsAfterAsText, List.mem_append, List.mem_cons] at h
  rcases h with h | h | h | h | h | h | h
  · exact absurd h (by decide)
  · exact absurd (hA '\n' h) (by decide)
  · exact absurd h (by decide)
  · exact absurd h (by decide)
  · exact absurd h (by decide)
  · exact (hp '\n' h) rfl
  · simp at h

/-- The statement ends in its semicolon. -/
theorem getLast_nsStmt (A p : List Char) : (nsStmt A p).getLast? = some ';' := by
  rw [nsStmt, List.getLast?_append_of_ne_nil _ (by simp [nsAfterAsText]),
    nsAfterAsText, List.getLast?_append_of_ne_nil _ (by simp),
    show (' ' :: ("from ".data ++ (Char.ofNat 39 :: (p ++ [Char.ofNat 39, ';'])))) =
      [' '] ++ ("from ".data ++ (Char.ofNat 39 :: (p ++ [Char.ofNat 39, ';']))) from rfl,
    List.getLast?_append_of_ne_nil _ (by simp),
    List.getLast?_append_of_ne_nil _ (by simp),
    show (Char.ofNat 39 :: (p ++ [Char.ofNat 39, ';'])) =
      [Char.ofNat 39] ++ (p ++ [Char.ofNat 39, ';']) from rfl,
    List.getLast?_append_of_ne_nil _ (by simp),
    List.getLast?_append_of_ne_nil _ (by simp)]
  rfl

/-- Python `str.strip` is the identity on a text with non-whitespace ends. -/
theorem trimWs_id_of_ends (s : List Char)
    (h1 : ∀ c, s.head? = some c → isPySpace c = false)
    (h2 : ∀ c, s.getLast? = some c → isPySpace c = false) :
    trimWs s = s := by
  unfold trimWs
  have hd : s.dropWhile isPySpace = s := by
    cases s with
    | nil => rfl
    | cons c cs =>
      rw [List.dropWhile_cons, h1 c rfl]
      simp
  rw [hd]
  have hr : s.reverse.dropWhile isPySpace = s.reverse := by
    cases hrev : s.reverse with
    | nil => rfl
    | cons c cs =>
      have hlast : s.getLast? = some c := by
        rw [← List.head?_reverse, hrev]
        rfl
      rw [List.dropWhile_cons, h2 c hlast]
      simp
  rw [hr, List.reverse_reverse]

/-- C10: a namespace-style import whose module specifier is not relative
(does not begin with `./` or `../`) — here `import * as A from \x27p\x27;`
with a nonempty word-character alias `A` and a single-line, quote-free,
star-free specifier `p` — is neither removed from the transformed body nor
recorded in the namespace-imports map: `processOne` returns the statement
verbatim with no alias observation and no captured export, and the
collection step wraps the untouched statement into the chunk while leaving
the namespace-imports map (and the exports map) empty. -/
theorem C10_nonrelative_ns_import_passthrough (A p : List Char)
    (resolve : List Char → Option (List Char)) (fp : List Char)
    (hA : AllWord A) (hA0 : A ≠ [])
    (h1 : List.isPrefixOf "./".data p = false)
    (h2 : List.isPrefixOf "../".data p = false)
    (hp : ∀ ch ∈ p, notQuote ch = true ∧ ch ≠ '*' ∧ ch ≠ '\n') :
    processOne resolve (nsStmt A p) = ⟨nsStmt A p, [], []⟩ ∧
    collectStep (fun _ => resolve) (fun _ => nsStmt A p) ⟨[], [], []⟩ fp =
      ⟨[sectionHeader fp ++ nsStmt A p ++ sectionFooter fp], [], []⟩ := by
  have hnl : '\n' ∉ nsStmt A p := newline_not_mem_nsStmt A p hA (fun ch h => (hp ch h).2.2)
  have hstrip : stripLicense (nsStmt A p) = nsStmt A p :=
    stripLicense_of_no_opener _
      (no_opener_of_star_count _ (count_star_nsStmt A p hA (fun ch h => (hp ch h).2.1)))
  have hns := nsImportM_nsStmt_none A p hA hA0 h1 h2
  have hfa : findAllLineAnchored nsImportM true (nsStmt A p) = [] :=
    findAllLineAnchored_none_nil _ _ hns hnl
  have hsub1 : subLineAnchored (fun s => (nsImportM s).map (fun pr => (pr.1, []))) true
      (nsStmt A p) = nsStmt A p :=
    subLineAnchored_none_id _ _ (by rw [hns]; rfl) hnl
  have hsub3 : subLineAnchored (fun s => (relOtherM s).map (fun r => (r, []))) true
      (nsStmt A p) = nsStmt A p := subLineAnchored_none_id _ _ rfl hnl
  have hsub4 : subLineAnchored (fun s => (relSideEffectM s).map (fun r => (r, []))) true
      (nsStmt A p) = nsStmt A p := subLineAnchored_none_id _ _ rfl hnl
  have hsub5 : subLineAnchored (fun s => (nonRelSideEffectM s).map (fun r => (r, []))) true
      (nsStmt A p) = nsStmt A p := subLineAnchored_none_id _ _ rfl hnl
  have hsub6 : subLineAnchored (fun s => (addMatchersM s).map (fun r => (r, []))) true
      (nsStmt A p) = nsStmt A p := subLineAnchored_none_id _ _ rfl hnl
  have hfa1 : findAllLineAnchored exportNamedCapM true (nsStmt A p) = [] :=
    findAllLineAnchored_none_nil _ _ rfl hnl
  have hfa2 : findAllLineAnchored exportDefaultCapM true (nsStmt A p) = [] :=
    findAllLineAnchored_none_nil _ _ rfl hnl
  have hfa3 : findAllLineAnchored exportNamedListCapM true (nsStmt A p) = [] :=
    findAllLineAnchored_none_nil _ _ rfl hnl
  have hsub7 : subLineAnchored exportDeclM true (nsStmt A p) = nsStmt A p :=
    subLineAnchored_none_id _ _ rfl hnl
  have hsub8 : subLineAnchored exportDefaultM true (nsStmt A p) = nsStmt A p :=
    subLineAnchored_none_id _ _ rfl hnl
  have hsub9 : subLineAnchored (fun s => (exportFromM s).map (fun r => (r, []))) true
      (nsStmt A p) = nsStmt A p := subLineAnchored_none_id _ _ rfl hnl
  have hsub10 : subLineAnchored (fun s => (exportListM s).map (fun r => (r, []))) true
      (nsStmt A p) = nsStmt A p := subLineAnchored_none_id _ _ rfl hnl
  have hpo : processOne resolve (nsStmt A p) = ⟨nsStmt A p, [], []⟩ := by
    simp only [processOne]
    rw [hstrip, hfa, hsub1, hsub3, hsub4, hsub5, hsub6, hfa1, hfa2, hfa3,
      hsub7, hsub8, hsub9, hsub10]
    rfl
  have htrim : trimWs (nsStmt A p) = nsStmt A p := by
    apply trimWs_id_of_ends
    · intro c hc
      rw [show (nsStmt A p).head? = some 'i' from rfl] at hc
      cases hc
      decide
    · intro c hc
      rw [getLast_nsStmt A p] at hc
      cases hc
      decide
  refine ⟨hpo, ?_⟩
  simp only [collectStep]
  rw [hpo]
  rw [htrim]
  rw [show (nsStmt A p).isEmpty = false from rfl]
  simp

/-- Witness for C10 at a concrete input: the statement
`import * as X from \x27pkg\x27;` with the bare specifier `pkg`. -/
theorem C10_nonrelative_ns_import_passthrough_witness :
    (AllWord "X".data ∧ "X".data ≠ ([] : List Char) ∧
     List.isPrefixOf "./".data "pkg".data = false ∧
     List.isPrefixOf "../".data "pkg".data = false ∧
     (∀ ch ∈ "pkg".data, notQuote ch = true ∧ ch ≠ '*' ∧ ch ≠ '\n')) ∧
    processOne (fun _ => none) (nsStmt "X".data "pkg".data) =
      ⟨nsStmt "X".data "pkg".data, [], []⟩ ∧
    collectStep (fun _ => fun _ => none) (fun _ => nsStmt "X".data "pkg".data)
      ⟨[], [], []⟩ "f.ts".data =
      ⟨[sectionHeader "f.ts".data ++ nsStmt "X".data "pkg".data ++
        sectionFooter "f.ts".data], [], []⟩ :=
  ⟨⟨by decide, by decide, by decide, by decide, by decide⟩,
   C10_nonrelative_ns_import_passthrough "X".data "pkg".data (fun _ => none) "f.ts".data
     (by decide) (by decide) (by decide) (by decide) (by decide)⟩
